import Mathlib

/-!
Verification development for the minimal agentic system
(conversation-turn orchestrator, stream decoder, tool-call assembler,
execution tracker and task scheduler).

The JavaScript sources are shallowly embedded:

* `Value`/`Fields` model JavaScript objects as insertion-ordered key/value
  lists (JavaScript objects preserve insertion order and cannot contain
  duplicate keys; theorems that need that fact take a `Nodup` hypothesis).
* `stringify` models the platform builtin `JSON.stringify` on this value
  grammar (no arrays or floats are needed by any claim; string escaping
  covers quote and backslash, the only escapes the concrete inputs use).
* `jsonParse` models the platform builtin `JSON.parse` restricted to the
  same grammar.  All general theorems are quantified over an arbitrary
  parse function; `jsonParse` is used only to instantiate witnesses on
  concrete inputs, where it agrees with the real builtin.
* `createToolSignature` is translated from `createToolSignature` in
  `utils/messages.js` (the variant used by `src/query.js`).
-/

namespace AgentSys

mutual

/-- JavaScript value grammar used by the tool-call machinery, as a mutual
inductive so that structural recursion over nested objects is available.
`vobj` fields are in insertion order, exactly like a JavaScript object. -/
inductive Value where
  | vnull : Value
  | vbool : Bool → Value
  | vnum : Int → Value
  | vstr : String → Value
  | vobj : Fields → Value
deriving DecidableEq, Repr

inductive Fields where
  | nil : Fields
  | cons : String → Value → Fields → Fields
deriving DecidableEq, Repr

end

/-- The association-list view of an object's fields. -/
def Fields.toList : Fields → List (String × Value)
  | .nil => []
  | .cons k v rest => (k, v) :: rest.toList

/-- Rebuild `Fields` from an association list. -/
def Fields.ofList : List (String × Value) → Fields
  | [] => .nil
  | (k, v) :: rest => .cons k v (Fields.ofList rest)

/-- JSON string escaping for quote and backslash (the only escapes the
concrete inputs in this development use; `JSON.stringify` additionally
escapes control characters, which never occur here). -/
def escapeJson (s : String) : String :=
  String.mk (s.data.flatMap (fun c =>
    if c = '"' then ['\\', '"']
    else if c = '\\' then ['\\', '\\']
    else [c]))

mutual

/-- `JSON.stringify` modelled on the `Value` grammar; fields are emitted in
list (= insertion) order, exactly as the builtin does. -/
def stringify : Value → String
  | .vnull => "null"
  | .vbool true => "true"
  | .vbool false => "false"
  | .vnum n => toString n
  | .vstr s => "\"" ++ escapeJson s ++ "\""
  | .vobj fs => "\x7b" ++ stringifyFields fs ++ "\x7d"

def stringifyFields : Fields → String
  | .nil => ""
  | .cons k v .nil => "\"" ++ escapeJson k ++ "\":" ++ stringify v
  | .cons k v rest =>
      "\"" ++ escapeJson k ++ "\":" ++ stringify v ++ "," ++ stringifyFields rest

end

/-- `String(x)` (JavaScript string coercion) on primitive values, as used by
`createToolSignature` for non-object, non-string inputs. -/
def jsStringCoerce : Value → String
  | .vnull => "null"
  | .vbool true => "true"
  | .vbool false => "false"
  | .vnum n => toString n
  | .vstr s => s
  | .vobj _ => "[object Object]"

/-! ### A concrete model of `JSON.parse`

Used only to instantiate witnesses; every general theorem quantifies over an
arbitrary parse function `String → Option Value`. -/

/-- Skip JSON whitespace. -/
def skipWs : List Char → List Char
  | [] => []
  | c :: rest => if c = ' ' ∨ c = '\n' ∨ c = '\t' ∨ c = '\r' then skipWs rest else c :: rest

/-- Parse a decimal digit run. -/
def parseDigits : List Char → Nat → Option (Nat × List Char)
  | [], _ => none
  | c :: rest, acc =>
      if c.isDigit then
        match parseDigits rest (acc * 10 + (c.toNat - '0'.toNat)) with
        | some r => some r
        | none => some (acc * 10 + (c.toNat - '0'.toNat), rest)
      else none

/-- Parse a JSON string body after the opening quote, handling the `\"` and
`\\` escapes. -/
def parseStringBody (fuel : Nat) (cs : List Char) (acc : List Char) :
    Option (String × List Char) :=
  match fuel with
  | 0 => none
  | fuel' + 1 =>
    match cs with
    | [] => none
    | '"' :: rest => some (String.mk acc.reverse, rest)
    | '\\' :: '"' :: rest => parseStringBody fuel' rest ('"' :: acc)
    | '\\' :: '\\' :: rest => parseStringBody fuel' rest ('\\' :: acc)
    | '\\' :: _ => none
    | c :: rest => parseStringBody fuel' rest (c :: acc)

/-- Check that a literal keyword is a prefix, returning the remainder. -/
def parseLit : List Char → List Char → Option (List Char)
  | [], rest => some rest
  | _, [] => none
  | p :: ps, c :: rest => if p = c then parseLit ps rest else none

mutual

/-- Fuel-indexed recursive-descent parser for one JSON value. -/
def parseVal (fuel : Nat) (cs : List Char) : Option (Value × List Char) :=
  match fuel with
  | 0 => none
  | fuel' + 1 =>
    match skipWs cs with
    | [] => none
    | c :: rest =>
      if c = '{' then
        match skipWs rest with
        | '}' :: rest' => some (.vobj .nil, rest')
        | rest' => (parseFields fuel' rest').map (fun (fs, r) => (.vobj fs, r))
      else if c = '"' then
        (parseStringBody (rest.length + 1) rest []).map (fun (s, r) => (.vstr s, r))
      else if c = 't' then
        (parseLit ['r', 'u', 'e'] rest).map (fun r => (.vbool true, r))
      else if c = 'f' then
        (parseLit ['a', 'l', 's', 'e'] rest).map (fun r => (.vbool false, r))
      else if c = 'n' then
        (parseLit ['u', 'l', 'l'] rest).map (fun r => (.vnull, r))
      else if c = '-' then
        (parseDigits rest 0).map (fun (n, r) => (.vnum (-(n : Int)), r))
      else if c.isDigit then
        (parseDigits (c :: rest) 0).map (fun (n, r) => (.vnum (n : Int), r))
      else none

/-- Parse one or more `"key": value` fields followed by `}`. -/
def parseFields (fuel : Nat) (cs : List Char) : Option (Fields × List Char) :=
  match fuel with
  | 0 => none
  | fuel' + 1 =>
    match skipWs cs with
    | '"' :: rest =>
      match parseStringBody (rest.length + 1) rest [] with
      | none => none
      | some (k, rest') =>
        match skipWs rest' with
        | ':' :: rest'' =>
          match parseVal fuel' rest'' with
          | none => none
          | some (v, rest''') =>
            match skipWs rest''' with
            | ',' :: more =>
              (parseFields fuel' more).map (fun (fs, r) => (.cons k v fs, r))
            | '}' :: more => some (.cons k v .nil, more)
            | _ => none
        | _ => none
    | _ => none

end

/-- Model of the platform builtin `JSON.parse`, restricted to the `Value`
grammar (objects, strings, integers, booleans, null). -/
def jsonParse (s : String) : Option Value :=
  match parseVal (s.length + 1) s.data with
  | some (v, rest) => if skipWs rest = [] then some v else none
  | none => none

/-! ### `createToolSignature` (utils/messages.js)

```js
function createToolSignature(toolName, toolInput) {
    if (!toolName) return "unknown:tool";
    if (toolInput === null || toolInput === undefined) return `${toolName}:empty-input`;
    if (typeof toolInput === 'object' && Object.keys(toolInput).length === 0)
        return `${toolName}:empty-object`;
    if (typeof toolInput === 'object') {
        const sortedKeys = Object.keys(toolInput).sort();
        normalizedInput = {};
        for (const key of sortedKeys) normalizedInput[key] = toolInput[key];
        return `${toolName}:${JSON.stringify(normalizedInput)}`;
    } else if (typeof toolInput === 'string') {
        return `${toolName}:${toolInput}`;
    } else {
        return `${toolName}:${String(toolInput)}`;
    }
}
```

`Array.prototype.sort()` on distinct keys is lexicographic comparison of the
key strings; it is modelled by `List.insertionSort` under `String`'s
lexicographic order (any sorting algorithm with a total comparator produces
the same sorted permutation on distinct keys).  Only the top-level keys are
sorted; nested objects pass through `JSON.stringify` in insertion order. -/

/-- `Array.prototype.sort()`'s default comparison on distinct keys:
lexicographic comparison of the character sequences (by code point; code
point and UTF-16 code-unit order agree on every character that occurs in a
tool-argument key). -/
def lexLeCh : List Char → List Char → Bool
  | [], _ => true
  | _ :: _, [] => false
  | a :: as, b :: bs => if a = b then lexLeCh as bs else decide (a.toNat ≤ b.toNat)

/-- Comparator used to sort the top-level fields by key. -/
def keyLE (a b : String × Value) : Prop := lexLeCh a.1.data b.1.data = true

/-- Strict version of `keyLE` (used only in proofs, where key distinctness
upgrades the sortedness). -/
def keyLT (a b : String × Value) : Prop := lexLeCh a.1.data b.1.data = true ∧ a.1 ≠ b.1

instance : DecidableRel keyLE := fun a b =>
  inferInstanceAs (Decidable (lexLeCh a.1.data b.1.data = true))

/-- `createToolSignature` from `utils/messages.js`.  `toolInput = vnull`
covers both `null` and `undefined` (the code treats them alike). -/
def createToolSignature (toolName : String) (toolInput : Value) : String :=
  if toolName = "" then "unknown:tool"
  else
    match toolInput with
    | .vnull => toolName ++ ":empty-input"
    | .vobj .nil => toolName ++ ":empty-object"
    | .vobj fs =>
        toolName ++ ":" ++
          stringify (.vobj (Fields.ofList (List.insertionSort keyLE fs.toList)))
    | .vstr s => toolName ++ ":" ++ s
    | v => toolName ++ ":" ++ jsStringCoerce v

/-! ### The execution tracker (`toolExecutionTracker` in `src/query.js`)

JavaScript `Set`s are modelled as lists with membership-guarded insertion,
and the `Map` of time-windowed signatures as an association list updated in
place.  Timestamps (`Date.now()`) are naturals passed in explicitly; note
that in JavaScript `now - lastTime` can be negative (then `< windowMs`
holds), and truncated `Nat` subtraction gives `0 < windowMs` in the same
situations, so the comparison agrees.  A falsy `id`/`name` is the empty
string (`toolUse` itself is always an object at the call sites). -/

/-- A tool-use request: `{id, name, input}`. -/
structure ToolUse where
  id : String
  name : String
  input : Value
deriving DecidableEq, Repr

/-- Set insertion (`Set.prototype.add`). -/
def addSet (l : List String) (x : String) : List String :=
  if x ∈ l then l else l ++ [x]

/-- `Map.prototype.get` on the association-list model. -/
def lookupTW : List (String × Nat) → String → Option Nat
  | [], _ => none
  | (k, v) :: rest, key => if k = key then some v else lookupTW rest key

/-- `Map.prototype.set` on the association-list model. -/
def setTW : List (String × Nat) → String → Nat → List (String × Nat)
  | [], key, val => [(key, val)]
  | (k, v) :: rest, key, val =>
      if k = key then (k, val) :: rest else (k, v) :: setTW rest key val

/-- The global `toolExecutionTracker` state. -/
structure Tracker where
  executionCount : Nat
  recursionDepth : Nat
  toolIds : List String
  toolSignatures : List String
  timeWindowedSignatures : List (String × Nat)
  contentBlockIds : List String
deriving DecidableEq, Repr

/-- The tracker as initialised at module load. -/
def emptyTracker : Tracker := ⟨0, 0, [], [], [], []⟩

/-- `isDuplicate(toolUse)`: exact-id check, then content-signature check. -/
def Tracker.isDuplicate (tr : Tracker) (t : ToolUse) : Bool :=
  if t.id = "" ∨ t.name = "" then false
  else if t.id ∈ tr.toolIds then true
  else createToolSignature t.name t.input ∈ tr.toolSignatures

/-- `isDuplicateWithTimeWindow(toolUse, windowMs)`: returns the boolean and
the updated tracker (the method records the current timestamp whenever it
does not report a within-window duplicate). -/
def Tracker.isDuplicateWithTimeWindow (tr : Tracker) (t : ToolUse) (now windowMs : Nat) :
    Bool × Tracker :=
  if t.name = "" then (false, tr)
  else
    let signature := createToolSignature t.name t.input
    match lookupTW tr.timeWindowedSignatures signature with
    | some lastTime =>
        if now - lastTime < windowMs then (true, tr)
        else (false, { tr with timeWindowedSignatures := setTW tr.timeWindowedSignatures signature now })
    | none =>
        (false, { tr with timeWindowedSignatures := setTW tr.timeWindowedSignatures signature now })

/-- `trackExecution(toolUse)` at timestamp `now`. -/
def Tracker.trackExecution (tr : Tracker) (t : ToolUse) (now : Nat) : Tracker :=
  if t.id = "" ∨ t.name = "" then tr
  else
    let signature := createToolSignature t.name t.input
    { tr with
        executionCount := tr.executionCount + 1
        toolIds := addSet tr.toolIds t.id
        toolSignatures := addSet tr.toolSignatures signature
        timeWindowedSignatures := setTW tr.timeWindowedSignatures signature now }

/-- `incrementRecursionDepth()`. -/
def Tracker.incrementRecursionDepth (tr : Tracker) : Tracker :=
  { tr with recursionDepth := tr.recursionDepth + 1 }

/-- `decrementRecursionDepth()` (guarded against going below zero). -/
def Tracker.decrementRecursionDepth (tr : Tracker) : Tracker :=
  if tr.recursionDepth > 0 then { tr with recursionDepth := tr.recursionDepth - 1 } else tr

/-- `resetForNewQuery()`: clears the id, signature and content-block tables
and the counters; the time-windowed signature map is deliberately NOT
cleared (source comment: "timeWindowedSignatures not necessarily cleared,
can be useful across queries"), and no sequence id exists in the code. -/
def Tracker.resetForNewQuery (tr : Tracker) : Tracker :=
  { tr with
      executionCount := 0
      recursionDepth := 0
      toolIds := []
      toolSignatures := []
      contentBlockIds := [] }

/-- The duplicate check exactly as the orchestrator invokes it at a
`content_block_start` frame:
`isDuplicate(toolUse) || isDuplicateWithTimeWindow(toolUse)` with the
default 60000 ms window (`||` short-circuits, so the time-window check, and
its timestamp recording, run only when the exact check is negative). -/
def combinedDupCheck (tr : Tracker) (t : ToolUse) (now : Nat) : Bool × Tracker :=
  if tr.isDuplicate t then (true, tr)
  else tr.isDuplicateWithTimeWindow t now 60000

/-! ### The stream frame decoder (`queryClaude` in `src/services/claude.js`)

The SSE-processing loop:

```js
buffer += decoder.decode(value, { stream: true });
let boundary = buffer.indexOf('\n\n');
while (boundary !== -1) {
    const message = buffer.substring(0, boundary);
    buffer = buffer.substring(boundary + 2);
    if (message.startsWith('event:')) {
        const lines = message.split('\n');
        const eventType = lines[0].substring('event: '.length).trim();
        const dataLine = lines.find(line => line.startsWith('data:'));
        if (dataLine) {
            const data = dataLine.substring('data: '.length).trim();
            try { yield { type: eventType, data: JSON.parse(data) }; }
            catch (e) { /* log and drop the record */ }
        }
    }
    boundary = buffer.indexOf('\n\n');
}
```

The model works on `List Char` (the `TextDecoder` with `stream: true`
guarantees byte chunking never splits a character, so character-level
chunking is the faithful granularity).  The per-record `JSON.parse` is an
arbitrary parameter `jp`; theorems hold for every `jp`. -/

/-- Splitting the buffer at every occurrence of the `"\n\n"` boundary, left
to right: returns the complete records and the trailing leftover buffer.
This is the fused form of the `indexOf('\n\n')`/`substring` loop. -/
def extractRecords : List Char → List (List Char) × List Char
  | [] => ([], [])
  | [c] => ([], [c])
  | c₁ :: c₂ :: rest =>
      if c₁ = '\n' ∧ c₂ = '\n' then
        let p := extractRecords rest
        ([] :: p.1, p.2)
      else
        match extractRecords (c₂ :: rest) with
        | ([], lo) => ([], c₁ :: lo)
        | (r :: rs, lo) => ((c₁ :: r) :: rs, lo)

/-- `message.startsWith(pat)` on character lists. -/
def startsWithCh : List Char → List Char → Bool
  | [], _ => true
  | _ :: _, [] => false
  | p :: ps, c :: cs => p = c && startsWithCh ps cs

/-- `message.split('\n')` on character lists. -/
def splitNl : List Char → List (List Char)
  | [] => [[]]
  | c :: rest =>
      if c = '\n' then [] :: splitNl rest
      else
        match splitNl rest with
        | [] => [[c]]
        | l :: ls => (c :: l) :: ls

/-- Is `c` trimmed by `String.prototype.trim`? (the whitespace kinds that
occur in this protocol). -/
def isWsChar (c : Char) : Bool := c = ' ' ∨ c = '\n' ∨ c = '\t' ∨ c = '\r'

/-- `s.trim()` on character lists. -/
def trimCh (l : List Char) : List Char :=
  ((l.dropWhile isWsChar).reverse.dropWhile isWsChar).reverse

/-- One decoded protocol frame: `{ type: eventType, data: parsedData }`. -/
structure Frame where
  kind : List Char
  payload : Value
deriving DecidableEq, Repr

/-- Processing of one complete blank-line-terminated record. -/
def parseRecord (jp : List Char → Option Value) (message : List Char) : Option Frame :=
  if startsWithCh "event:".data message then
    let lines := splitNl message
    let eventType := trimCh ((lines.headD []).drop 7)
    match lines.find? (fun line => startsWithCh "data:".data line) with
    | none => none
    | some dataLine =>
        match jp (trimCh (dataLine.drop 6)) with
        | some parsed => some ⟨eventType, parsed⟩
        | none => none
  else none

/-- The chunk loop: append each chunk to the buffer, extract and process all
complete records, keep the leftover.  A non-empty final leftover is only
warned about, never emitted. -/
def decodeLoop (jp : List Char → Option Value) : List Char → List (List Char) → List Frame
  | _, [] => []
  | buf, c :: cs =>
      let p := extractRecords (buf ++ c)
      p.1.filterMap (parseRecord jp) ++ decodeLoop jp p.2 cs

/-- The frame sequence the decoder emits for a given chunking of the input. -/
def decodeChunks (jp : List Char → Option Value) (chunks : List (List Char)) : List Frame :=
  decodeLoop jp [] chunks

/-- A well-formed SSE record specification: an event-kind line and a data
line (claims C9's "records" are of this shape). -/
structure RecSpec where
  etype : List Char
  edata : List Char
deriving DecidableEq, Repr

/-- The wire text of one record: `event: <etype>\ndata: <edata>`. -/
def mkRecord (r : RecSpec) : List Char :=
  "event: ".data ++ r.etype ++ '\n' :: ("data: ".data ++ r.edata)

/-- The wire text of a record stream: records separated (terminated) by the
blank-line boundary. -/
def encode (recs : List RecSpec) : List Char :=
  (recs.map (fun r => mkRecord r ++ ['\n', '\n'])).flatten

/-- Does the buffer contain the `"\n\n"` boundary? -/
def hasBoundary : List Char → Bool
  | [] => false
  | [_] => false
  | c₁ :: c₂ :: rest => (c₁ = '\n' && c₂ = '\n') || hasBoundary (c₂ :: rest)

/-! ### The stream-processing loop of `query` (`src/query.js`, the
`for await (const event of claudeStream)` body)

Frames are consumed as already-decoded events.  A `content_block_start`
frame for a tool-use block carries the block id, tool name, optional initial
`input`, and the `Date.now()` timestamp at which it is processed (the only
point in the loop that reads the clock, inside
`isDuplicateWithTimeWindow`). -/

/-- The `content_block` of a `content_block_start` frame.  Only tool-use
blocks carry an id (`event.data.content_block?.id` is undefined for text
blocks). -/
inductive CBlock where
  | toolUseB : String → String → Option Value → CBlock
  | textB : CBlock
  | otherB : CBlock
deriving DecidableEq, Repr

/-- A `content_block_delta` payload. -/
inductive Delta where
  | textDelta : String → Delta
  | inputJsonDelta : String → Delta
  | otherDelta : Delta
deriving DecidableEq, Repr

/-- The decoded stream events the loop switches on. -/
inductive SEv where
  | errorEv : SEv
  | messageStart : SEv
  | contentBlockStart : CBlock → Nat → SEv
  | contentBlockDelta : Delta → SEv
  | contentBlockStop : SEv
  | messageStop : SEv
deriving DecidableEq, Repr

/-- `event.data.content_block?.id` (undefined for non-tool blocks). -/
def CBlock.idOf : CBlock → Option String
  | .toolUseB i _ _ => if i = "" then none else some i
  | _ => none

/-- The events the loop itself yields (the ones the claims are about). -/
inductive OutEv where
  | errorOut : OutEv
  | skippedDuplicate : String → String → OutEv
  | finalStructure : String → List ToolUse → OutEv
deriving DecidableEq, Repr

/-- The loop's local variables plus the global tracker. -/
structure StreamSt where
  tracker : Tracker
  toolUseRequests : List ToolUse
  assistantResponseText : String
  currentToolInputJson : String
  currentToolUseId : Option String
  skippingDuplicateTool : Bool
  finalStruct : Option (String × List ToolUse)
deriving DecidableEq, Repr

/-- Fresh loop state over a given tracker (the `let` declarations before the
`for await`). -/
def initStreamSt (tr : Tracker) : StreamSt :=
  ⟨tr, [], "", "", none, false, none⟩

/-- The guard before the opportunistic mid-stream parse:
`currentToolInputJson.trim().startsWith('{') && currentToolInputJson.trim().endsWith('}')`
(expressed on the character list so that it evaluates by kernel reduction). -/
def braceGuard (s : String) : Bool :=
  let t := trimCh s.data
  startsWithCh ['{'] t && startsWithCh ['}'] t.reverse

/-- `toolUseRequests.find(req => req.id === currentToolUseId)` followed by a
mutation of that object: update the first request with the given id. -/
def updateFirst : List ToolUse → String → Value → List ToolUse
  | [], _, _ => []
  | r :: rest, tid, v =>
      if r.id = tid then { r with input := v } :: rest
      else r :: updateFirst rest tid v

/-- One iteration of the `for await` loop body. -/
def streamStep (jp : String → Option Value) (st : StreamSt) : SEv → StreamSt × List OutEv
  | .errorEv => (st, [.errorOut])
  | .messageStart =>
      ({ st with assistantResponseText := "", toolUseRequests := [], finalStruct := none }, [])
  | .contentBlockStart block now =>
      -- duplicate content-block suppression (runs before the switch)
      match block.idOf with
      | some bid =>
          if bid ∈ st.tracker.contentBlockIds then (st, [])
          else
            let st := { st with tracker := { st.tracker with contentBlockIds := addSet st.tracker.contentBlockIds bid } }
            match block with
            | .toolUseB i n inp =>
                let toolUse : ToolUse := ⟨i, n, inp.getD (.vobj .nil)⟩
                let st := { st with currentToolUseId := some i, currentToolInputJson := "",
                                    skippingDuplicateTool := false }
                let c := combinedDupCheck st.tracker toolUse now
                let st := { st with tracker := c.2 }
                if c.1 then
                  ({ st with skippingDuplicateTool := true }, [.skippedDuplicate i n])
                else
                  ({ st with toolUseRequests := st.toolUseRequests ++ [toolUse] }, [])
            | _ => (st, [])
      | none =>
          match block with
          | .toolUseB i n inp =>
              let toolUse : ToolUse := ⟨i, n, inp.getD (.vobj .nil)⟩
              let st := { st with currentToolUseId := some i, currentToolInputJson := "",
                                  skippingDuplicateTool := false }
              let c := combinedDupCheck st.tracker toolUse now
              let st := { st with tracker := c.2 }
              if c.1 then
                ({ st with skippingDuplicateTool := true }, [.skippedDuplicate i n])
              else
                ({ st with toolUseRequests := st.toolUseRequests ++ [toolUse] }, [])
          | _ => (st, [])
  | .contentBlockDelta (.textDelta s) =>
      ({ st with assistantResponseText := st.assistantResponseText ++ s }, [])
  | .contentBlockDelta (.inputJsonDelta s) =>
      match st.currentToolUseId with
      | some tid =>
          if st.skippingDuplicateTool then (st, [])
          else
            let json := st.currentToolInputJson ++ s
            if braceGuard json then
              match jp json with
              | some parsed =>
                  ({ st with currentToolInputJson := json,
                             toolUseRequests := updateFirst st.toolUseRequests tid parsed }, [])
              | none => ({ st with currentToolInputJson := json }, [])
            else ({ st with currentToolInputJson := json }, [])
      | none => (st, [])
  | .contentBlockDelta .otherDelta => (st, [])
  | .contentBlockStop =>
      ({ st with currentToolUseId := none, currentToolInputJson := "",
                 skippingDuplicateTool := false }, [])
  | .messageStop =>
      ({ st with finalStruct := some (st.assistantResponseText, st.toolUseRequests) },
       [.finalStructure st.assistantResponseText st.toolUseRequests])

/-- Run the loop over a whole event stream, collecting yielded events. -/
def processStream (jp : String → Option Value) (evs : List SEv) (st : StreamSt) :
    StreamSt × List OutEv :=
  match evs with
  | [] => (st, [])
  | e :: rest =>
      let p := streamStep jp st e
      let q := processStream jp rest p.1
      (q.1, p.2 ++ q.2)

/-! ### The `query` orchestrator skeleton (`src/query.js`)

`queryClaude` is modelled by a script: the list of responses successive
remote calls produce.  Each invocation of `query` consumes at most the head
of the script; recursion runs on the tail.  A `stream` response carries the
decoded events and the `Date.now()` timestamp used when the accepted
requests are registered with `trackExecution`.  An empty script behaves
like `fails` (the remote call raises, the `catch` yields an error event and
the `finally` still decrements the depth).  Tool execution results only
affect message *content*, never control flow, so the tool phase is modelled
by its emitted events (`tool_executing`/`tool_result` per accepted request;
the scheduler itself is modelled separately below). -/

/-- One scripted outcome of a `queryClaude` call. -/
inductive RemoteResp where
  | fails : RemoteResp
  | stream : List SEv → Nat → RemoteResp
deriving DecidableEq, Repr

/-- The events `query` yields (collapsing string-only status payloads). -/
inductive QEv where
  | statusEv : QEv
  | errorDepth : QEv
  | errorTurn : QEv
  | remoteCall : Nat → QEv
  | streamOut : OutEv → QEv
  | awaitingPermissions : QEv
  | toolExecuting : String → QEv
  | toolResult : String → QEv
  | permissionsResolved : QEv
  | finalAssistantResponse : String → QEv
  | noTextStatus : QEv
  | turnComplete : QEv
deriving DecidableEq, Repr

/-- The `finally` block: decrement the depth and, exactly when it reaches
zero, emit `turn_complete`. -/
def finishTurn (evs : List QEv) (tr : Tracker) (rest : List RemoteResp) :
    List QEv × Tracker × List RemoteResp :=
  let tr' := tr.decrementRecursionDepth
  (if tr'.recursionDepth = 0 then evs ++ [.turnComplete] else evs, tr', rest)

/-- The final-response branch when no valid tool requests remain. -/
def finalResponseEvs (st : StreamSt) : List QEv :=
  match st.finalStruct with
  | some (text, _) =>
      if text ≠ "" then [.finalAssistantResponse text]
      else if trimCh st.assistantResponseText.data ≠ [] then
        [.finalAssistantResponse st.assistantResponseText]
      else [.noTextStatus]
  | none =>
      if trimCh st.assistantResponseText.data ≠ [] then
        [.finalAssistantResponse st.assistantResponseText]
      else [.noTextStatus]

/-- The `query` generator: reset at depth 0, increment the shared depth,
depth guard (bound 5, checked before the `try`, returning after an explicit
decrement), remote call, stream processing, optional tool phase and
recursion, and the `finally` decrement with the top-level `turn_complete`.
Returns the yielded events, the final tracker, and the unconsumed script. -/
def queryModel (jp : String → Option Value) :
    List RemoteResp → Tracker → List QEv × Tracker × List RemoteResp
  | script, tr0 =>
    let tr1 := if tr0.recursionDepth = 0 then tr0.resetForNewQuery else tr0
    let tr2 := tr1.incrementRecursionDepth
    if 5 < tr2.recursionDepth then
      ([.errorDepth], tr2.decrementRecursionDepth, script)
    else
      match script with
      | [] => finishTurn [.statusEv, .remoteCall tr2.recursionDepth, .errorTurn] tr2 []
      | .fails :: rest =>
          finishTurn [.statusEv, .remoteCall tr2.recursionDepth, .errorTurn] tr2 rest
      | .stream evs tTrack :: rest =>
          let p := processStream jp evs (initStreamSt tr2)
          let st := p.1
          let outs := p.2.map QEv.streamOut
          let reqs := st.toolUseRequests
          if reqs.isEmpty then
            finishTurn ([.statusEv, .remoteCall tr2.recursionDepth] ++ outs ++
              finalResponseEvs st ++ [.statusEv]) st.tracker rest
          else
            let tr3 := reqs.foldl (fun t r => t.trackExecution r tTrack) st.tracker
            let toolEvs := [.statusEv, .awaitingPermissions] ++
              reqs.map (fun r => QEv.toolExecuting r.id) ++
              reqs.map (fun r => QEv.toolResult r.id) ++
              [.permissionsResolved, .statusEv]
            let sub := queryModel jp rest tr3
            let trF := sub.2.1.decrementRecursionDepth
            ((if trF.recursionDepth = 0 then
                ([.statusEv, .remoteCall tr2.recursionDepth] ++ outs ++ toolEvs ++ sub.1) ++ [.turnComplete]
              else
                [.statusEv, .remoteCall tr2.recursionDepth] ++ outs ++ toolEvs ++ sub.1),
             trF, sub.2.2)

/-! ### The task scheduler (`src/utils/generators.js`)

`executeTasksOptimally` partitions tasks into read-only and write tasks,
wraps each in a single-yield async generator (`yield await task.fn(...)`,
with a `catch` that yields an error object instead), runs the read
generators through `runConcurrently` and then the write generators through
`runSequentially`.

`runConcurrently` is modelled with the semantics JavaScript actually gives
it.  Every iteration of its `while` loop calls `generator.next()` on
*every* active generator and then `Promise.race`s the wrapped promises;
only the race winner's settled result is observed, the other promises are
dropped, yet their `next()` calls have already been enqueued and each
enqueued call consumes one step of its generator.  So a generator's k-th
issued request receives its k-th response (its single yielded value for
k = 1, `done` for k ≥ 2), and the loop observes, per iteration, the
response to the winner's *latest* request.  An adversarial schedule chooses
when task functions settle (`completeFn`) and which wrapper wins each race
(`raceWin`); a wrapper can win only once its generator's function has
settled, because every response of a single-yield generator becomes
available only after its `await task.fn` resolves or rejects.  The model's
schedules are a superset of the real event-loop timings, so universally
quantified theorems cover every real execution, while concrete schedules
exhibit real executions. -/

/-- The settling behaviour of one task's `fn`. -/
inductive FnOutcome (α : Type) (ε : Type) where
  | resolves : α → FnOutcome α ε
  | rejects : ε → FnOutcome α ε
deriving DecidableEq, Repr

/-- A scheduler task `{ fn, isReadOnly }`. -/
structure STask (α : Type) (ε : Type) where
  isReadOnly : Bool
  outcome : FnOutcome α ε
deriving DecidableEq, Repr

/-- What the wrapping generator yields: the resolved value, or the error
object built by its `catch` branch. -/
inductive TRes (α : Type) (ε : Type) where
  | ok : α → TRes α ε
  | err : ε → TRes α ε
deriving DecidableEq, Repr

/-- `try { yield await task.fn } catch { yield { error } }`. -/
def genYield : FnOutcome α ε → TRes α ε
  | .resolves v => .ok v
  | .rejects e => .err e

/-- Observable scheduler events: a read task's `fn` settling, a value
yielded by the read phase, and the write phase's starts/settlings/yields. -/
inductive SchedEv (α : Type) (ε : Type) where
  | readComplete : Nat → SchedEv α ε
  | yieldRead : Nat → TRes α ε → SchedEv α ε
  | writeStart : Nat → SchedEv α ε
  | writeComplete : Nat → SchedEv α ε
  | yieldWrite : Nat → TRes α ε → SchedEv α ε
deriving DecidableEq, Repr

/-- One adversary step for the concurrent read phase. -/
inductive Decision where
  | issueRequests : Decision
  | completeFn : Nat → Decision
  | raceWin : Nat → Decision
deriving DecidableEq, Repr

/-- State of `runConcurrently`'s loop: active generators with the number of
`next()` requests issued to each, the next queued generator index, which
task functions have started (first request issued) and settled, and whether
the current iteration's batch of `next()` calls is awaiting its race. -/
structure RState where
  active : List (Nat × Nat)
  nextIdx : Nat
  started : List Nat
  completedFns : List Nat
  requestsOutstanding : Bool
deriving DecidableEq, Repr

/-- Initial state: the first `min(maxConcurrency, n)` generators are active
with no requests issued. -/
def initRState (numReads maxC : Nat) : RState :=
  ⟨(List.range (min maxC numReads)).map (fun i => (i, 0)), min maxC numReads, [], [], false⟩

/-- Association lookup of a generator's request count. -/
def lookupReq : List (Nat × Nat) → Nat → Option Nat
  | [], _ => none
  | (i, r) :: rest, w => if i = w then some r else lookupReq rest w

/-- The read phase under a given schedule; `none` when the schedule is not
admissible or stops before the loop finishes. -/
def readLoop (reads : List (FnOutcome α ε)) :
    List Decision → RState → Option (List (SchedEv α ε))
  | [], st => if st.active = [] then some [] else none
  | .issueRequests :: ds, st =>
      if st.active ≠ [] ∧ st.requestsOutstanding = false then
        readLoop reads ds
          { st with active := st.active.map (fun p => (p.1, p.2 + 1)),
                    started := st.started ∪ st.active.map Prod.fst,
                    requestsOutstanding := true }
      else none
  | .completeFn i :: ds, st =>
      if i ∈ st.started ∧ i ∉ st.completedFns then
        (readLoop reads ds { st with completedFns := i :: st.completedFns }).map
          (SchedEv.readComplete i :: ·)
      else none
  | .raceWin w :: ds, st =>
      if st.requestsOutstanding = true ∧ w ∈ st.completedFns then
        match lookupReq st.active w with
        | none => none
        | some r =>
            if r = 1 then
              match reads.get? w with
              | none => none
              | some o =>
                  (readLoop reads ds { st with requestsOutstanding := false }).map
                    (SchedEv.yieldRead w (genYield o) :: ·)
            else
              let act := st.active.filter (fun p => p.1 ≠ w)
              if st.nextIdx < reads.length then
                readLoop reads ds
                  { st with active := act ++ [(st.nextIdx, 0)], nextIdx := st.nextIdx + 1,
                            requestsOutstanding := false }
              else
                readLoop reads ds { st with active := act, requestsOutstanding := false }
      else none

/-- The sequential write phase (`runSequentially`): each write generator is
drained completely — its `fn` starts, settles, and its single value is
yielded — before the next one starts. -/
def writeTrace (writes : List (FnOutcome α ε)) (j : Nat) : List (SchedEv α ε) :=
  match writes with
  | [] => []
  | o :: rest =>
      .writeStart j :: .writeComplete j :: .yieldWrite j (genYield o) :: writeTrace rest (j + 1)

/-- `executeTasksOptimally(tasks, ctx, maxConcurrency)`: the observable
trace for a given schedule of the read phase. -/
def execModel (tasks : List (STask α ε)) (maxC : Nat) (ds : List Decision) :
    Option (List (SchedEv α ε)) :=
  if tasks.isEmpty then some []
  else
    let reads := (tasks.filter (fun t => t.isReadOnly)).map STask.outcome
    let writes := (tasks.filter (fun t => !t.isReadOnly)).map STask.outcome
    (readLoop reads ds (initRState reads.length maxC)).map (· ++ writeTrace writes 0)

/-- "`a` occurs before `b`" in a trace: the trace splits into a prefix
containing `a` and a suffix containing `b`. -/
def SplitBefore (a b : SchedEv α ε) (l : List (SchedEv α ε)) : Prop :=
  ∃ l₁ l₂, l = l₁ ++ l₂ ∧ a ∈ l₁ ∧ b ∈ l₂

/-! ### Small helpers used by statements and witnesses -/

/-- `jsonParse` at character-list level, for instantiating the decoder. -/
def jsonParseCh (cs : List Char) : Option Value := jsonParse (String.mk cs)

/-- Events allowed between two tool-use starts in claim C10's trace:
delta and stop frames (which never touch the tracker). -/
def midOk : SEv → Bool
  | .contentBlockDelta _ => true
  | .contentBlockStop => true
  | _ => false

/-- The stream of one tool-use content block: start frame (with no initial
`input`, as when the arguments arrive as `input_json_delta` fragments),
the given argument fragments, and the stop frame. -/
def toolBlockTrace (i n : String) (t : Nat) (ds : List String) : List SEv :=
  SEv.contentBlockStart (.toolUseB i n none) t ::
    (ds.map (fun s => SEv.contentBlockDelta (.inputJsonDelta s)) ++ [SEv.contentBlockStop])

/-- The successive accumulated buffers seen after each fragment, starting
from buffer `acc`. -/
def bufPrefixesAux (acc : String) : List String → List String
  | [] => []
  | s :: rest => (acc ++ s) :: bufPrefixesAux (acc ++ s) rest

/-- Concatenation of all fragments (the complete accumulated buffer). -/
def concatStrs : List String → String
  | [] => ""
  | [s] => s
  | s :: rest => s ++ concatStrs rest

/-- All task results yielded by a scheduler trace, in order. -/
def yieldEvents : List (SchedEv α ε) → List (Nat × TRes α ε)
  | [] => []
  | .yieldRead i r :: rest => (i, r) :: yieldEvents rest
  | .yieldWrite j r :: rest => (j, r) :: yieldEvents rest
  | _ :: rest => yieldEvents rest

/-! ## Theorems -/

/-! ### Helper lemmas on the key comparator -/

theorem lexLeCh_total : ∀ x y : List Char, lexLeCh x y = true ∨ lexLeCh y x = true := by
  intro x
  induction x with
  | nil => intro y; left; rfl
  | cons a as ih =>
    intro y
    cases y with
    | nil => right; rfl
    | cons b bs =>
      by_cases hab : a = b
      · subst hab
        rcases ih bs with h | h
        · left; simpa [lexLeCh] using h
        · right; simpa [lexLeCh] using h
      · rcases le_total a.toNat b.toNat with h | h
        · left; simp [lexLeCh, hab, h]
        · right; simp [lexLeCh, Ne.symm hab, h]

theorem lexLeCh_trans :
    ∀ x y z : List Char, lexLeCh x y = true → lexLeCh y z = true → lexLeCh x z = true := by
  intro x
  induction x with
  | nil => intro y z _ _; rfl
  | cons a as ih =>
    intro y z hxy hyz
    cases y with
    | nil => simp [lexLeCh] at hxy
    | cons b bs =>
      cases z with
      | nil => simp [lexLeCh] at hyz
      | cons c cs =>
        by_cases hab : a = b <;> by_cases hbc : b = c
        · subst hab; subst hbc
          simp only [lexLeCh, if_pos rfl] at hxy hyz ⊢
          exact ih bs cs hxy hyz
        · subst hab
          simp only [lexLeCh, if_neg hbc] at hyz
          simp only [lexLeCh, if_neg hbc]
          exact hyz
        · subst hbc
          simp only [lexLeCh, if_neg hab] at hxy
          simp only [lexLeCh, if_neg hab]
          exact hxy
        · simp only [lexLeCh, if_neg hab] at hxy
          simp only [lexLeCh, if_neg hbc] at hyz
          simp only [decide_eq_true_eq] at hxy hyz
          by_cases hac : a = c
          · subst hac
            have heq : a.toNat = b.toNat := le_antisymm hxy hyz
            exact absurd (Char.ext (UInt32.ext heq)) hab
          · simp only [lexLeCh, if_neg hac, decide_eq_true_eq]
            omega

theorem lexLeCh_antisymm :
    ∀ x y : List Char, lexLeCh x y = true → lexLeCh y x = true → x = y := by
  intro x
  induction x with
  | nil =>
    intro y h₁ h₂
    cases y with
    | nil => rfl
    | cons b bs => simp [lexLeCh] at h₂
  | cons a as ih =>
    intro y h₁ h₂
    cases y with
    | nil => simp [lexLeCh] at h₁
    | cons b bs =>
      by_cases hab : a = b
      · subst hab
        simp only [lexLeCh, if_pos rfl] at h₁ h₂
        rw [ih bs h₁ h₂]
      · simp only [lexLeCh, if_neg hab, decide_eq_true_eq] at h₁
        simp only [lexLeCh, if_neg (Ne.symm hab), decide_eq_true_eq] at h₂
        have h                 : a.toNat = b.toNat := le_antisymm h₁ h₂
        exact absurd (Char.ext (UInt32.ext h)) hab

theorem string_data_inj {s t : String} (h : s.data = t.data) : s = t :=
  congrArg String.mk h

theorem lookupTW_setTW_self (m : List (String × Nat)) (k : String) (v : Nat) :
    lookupTW (setTW m k v) k = some v := by
  induction m with
  | nil => simp [setTW, lookupTW]
  | cons p rest ih =>
    rcases p with ⟨k', v'⟩
    by_cases h : k' = k
    · simp [setTW, lookupTW, h]
    · simp [setTW, lookupTW, h, ih]

theorem toList_ofList : ∀ l : List (String × Value), (Fields.ofList l).toList = l := by
  intro l
  induction l with
  | nil => rfl
  | cons p rest ih => simp [Fields.ofList, Fields.toList, ih]

/-- On association lists with distinct keys, sorting by key is invariant
under permutation (the two sorted lists are strictly key-sorted permutations
of each other and hence equal). -/
theorem insertionSort_eq_of_perm (l₁ l₂ : List (String × Value)) (hp : l₁.Perm l₂)
    (hn : (l₁.map Prod.fst).Nodup) :
    List.insertionSort keyLE l₁ = List.insertionSort keyLE l₂ := by
  haveI htot : IsTotal (String × Value) keyLE := ⟨fun a b => lexLeCh_total _ _⟩
  haveI htr : IsTrans (String × Value) keyLE := ⟨fun a b c => lexLeCh_trans _ _ _⟩
  haveI hanti : IsAntisymm (String × Value) keyLT :=
    ⟨fun a b h₁ h₂ =>
      absurd (string_data_inj (lexLeCh_antisymm _ _ h₁.1 h₂.1)) h₁.2⟩
  have hn₂ : (l₂.map Prod.fst).Nodup := ((hp.map Prod.fst).nodup_iff).mp hn
  have s₁ := List.sorted_insertionSort keyLE l₁
  have s₂ := List.sorted_insertionSort keyLE l₂
  have hperm : (List.insertionSort keyLE l₁).Perm (List.insertionSort keyLE l₂) :=
    (List.perm_insertionSort keyLE l₁).trans (hp.trans (List.perm_insertionSort keyLE l₂).symm)
  have hn₁' : ((List.insertionSort keyLE l₁).map Prod.fst).Nodup :=
    (((List.perm_insertionSort keyLE l₁).map Prod.fst).nodup_iff).mpr hn
  have hn₂' : ((List.insertionSort keyLE l₂).map Prod.fst).Nodup :=
    (((List.perm_insertionSort keyLE l₂).map Prod.fst).nodup_iff).mpr hn₂
  have hne₁ : (List.insertionSort keyLE l₁).Pairwise (fun a b => a.1 ≠ b.1) :=
    List.pairwise_map.mp hn₁'
  have hne₂ : (List.insertionSort keyLE l₂).Pairwise (fun a b => a.1 ≠ b.1) :=
    List.pairwise_map.mp hn₂'
  have st₁ : (List.insertionSort keyLE l₁).Pairwise keyLT := List.Pairwise.and s₁ hne₁
  have st₂ : (List.insertionSort keyLE l₂).Pairwise keyLT := List.Pairwise.and s₂ hne₂
  exact @List.eq_of_perm_of_sorted _ keyLT hanti _ _ hperm st₁ st₂

/-! ### C7 — key-order independence of `createToolSignature` -/

/-- C7, counterexample: the claim asserts signature equality also when only
*nested* object keys are reordered.  The two inputs below carry the same
key-value pairs and differ only in the order of the keys of the nested
object under `"a"`, yet their signatures differ (only top-level keys are
sorted; nested objects are stringified in insertion order). -/
theorem c7_counterexample :
    ([("x", Value.vnum 1), ("y", Value.vnum 2)] : List (String × Value)).Perm
      [("y", Value.vnum 2), ("x", Value.vnum 1)] ∧
    createToolSignature "t"
        (.vobj (.cons "a" (.vobj (.cons "x" (.vnum 1) (.cons "y" (.vnum 2) .nil))) .nil)) ≠
      createToolSignature "t"
        (.vobj (.cons "a" (.vobj (.cons "y" (.vnum 2) (.cons "x" (.vnum 1) .nil))) .nil)) :=
  ⟨List.Perm.swap _ _ _, by decide⟩

/-- C7, amended: for every tool name and every two argument objects that
contain the same key-value pairs (with distinct keys, as JavaScript objects
guarantee) and differ only in the order of the *top-level* keys,
`createToolSignature` returns equal signature strings.  Reordering keys of
nested objects can change the signature (see the counterexample). -/
theorem c7_theorem (name : String) (l₁ l₂ : List (String × Value)) (hp : l₁.Perm l₂)
    (hn : (l₁.map Prod.fst).Nodup) :
    createToolSignature name (.vobj (Fields.ofList l₁)) =
      createToolSignature name (.vobj (Fields.ofList l₂)) := by
  by_cases hname : name = ""
  · simp [createToolSignature, hname]
  · cases l₁ with
    | nil =>
      have : l₂ = [] := hp.symm.eq_nil
      subst this; rfl
    | cons p l₁' =>
      cases l₂ with
      | nil => exact absurd hp.eq_nil (by simp)
      | cons q l₂' =>
        simp only [createToolSignature, if_neg hname, Fields.ofList, toList_ofList]
        simp only [Fields.toList, toList_ofList, Prod.mk.eta]
        rw [insertionSort_eq_of_perm _ _ hp hn]

/-- C7, witness for the amended theorem at a concrete input. -/
theorem c7_witness :
    ([("b", Value.vnum 2), ("a", Value.vnum 1)] : List (String × Value)).Perm
      [("a", Value.vnum 1), ("b", Value.vnum 2)] ∧
    (([("b", Value.vnum 2), ("a", Value.vnum 1)] : List (String × Value)).map Prod.fst).Nodup ∧
    createToolSignature "t" (.vobj (Fields.ofList [("b", Value.vnum 2), ("a", Value.vnum 1)])) =
      createToolSignature "t" (.vobj (Fields.ofList [("a", Value.vnum 1), ("b", Value.vnum 2)])) :=
  ⟨List.Perm.swap _ _ _, by decide, c7_theorem "t" _ _ (List.Perm.swap _ _ _) (by decide)⟩

/-! ### C3 — `resetForNewQuery` and cross-turn duplicate suppression -/

/-- C3, counterexample: a request is recorded (via `trackExecution`) during
one top-level turn at time 0; `resetForNewQuery` starts a new turn; yet the
signature-plus-time-window check fires 1 second later for a same-signature
request (fresh id) whose only matching prior recording belongs to the
previous turn — the reset does not clear `timeWindowedSignatures` and no
sequence id exists, contradicting the claim's "never fires ... regardless
of how little time has elapsed". -/
theorem c3_counterexample :
    (((emptyTracker.trackExecution ⟨"id1", "viewFile", .vobj .nil⟩ 0).resetForNewQuery).isDuplicateWithTimeWindow
        ⟨"id2", "viewFile", .vobj .nil⟩ 1000 60000).1 = true := by decide

/-- C3, amended: `resetForNewQuery` clears the id, signature and
content-block tables (and the execution/depth counters) but keeps the
time-windowed signature table, and no sequence id exists.  After a reset
the exact-id/signature check cannot fire, but the time-window check fires
for a request whose matching recording belongs to a previous turn exactly
when that recording lies within the window; at or beyond the window it
does not fire. -/
theorem c3_theorem (tr : Tracker) (t : ToolUse) (now windowMs lastT : Nat) :
    tr.resetForNewQuery = ⟨0, 0, [], [], tr.timeWindowedSignatures, []⟩ ∧
    tr.resetForNewQuery.isDuplicate t = false ∧
    (lookupTW tr.timeWindowedSignatures (createToolSignature t.name t.input) = some lastT →
      t.name ≠ "" → now - lastT < windowMs →
      (tr.resetForNewQuery.isDuplicateWithTimeWindow t now windowMs).1 = true) ∧
    (lookupTW tr.timeWindowedSignatures (createToolSignature t.name t.input) = some lastT →
      t.name ≠ "" → ¬ now - lastT < windowMs →
      (tr.resetForNewQuery.isDuplicateWithTimeWindow t now windowMs).1 = false) := by
  refine ⟨rfl, ?_, ?_, ?_⟩
  · simp [Tracker.isDuplicate, Tracker.resetForNewQuery]
  · intro hl hn hw
    simp [Tracker.isDuplicateWithTimeWindow, Tracker.resetForNewQuery, hn, hl, hw]
  · intro hl hn hw
    simp [Tracker.isDuplicateWithTimeWindow, Tracker.resetForNewQuery, hn, hl, hw]

/-- C3, witness for the amended theorem at a concrete input. -/
theorem c3_witness :
    lookupTW [("viewFile:empty-object", 0)]
        (createToolSignature "viewFile" (Value.vobj .nil)) = some 0 ∧
    ("viewFile" : String) ≠ "" ∧ 1000 - 0 < 60000 ∧
    ((Tracker.mk 3 2 ["id1"] ["viewFile:empty-object"] [("viewFile:empty-object", 0)]
        ["id1"]).resetForNewQuery.isDuplicateWithTimeWindow
          ⟨"id2", "viewFile", .vobj .nil⟩ 1000 60000).1 = true :=
  ⟨by decide, by decide, by decide,
    (c3_theorem (Tracker.mk 3 2 ["id1"] ["viewFile:empty-object"]
        [("viewFile:empty-object", 0)] ["id1"]) ⟨"id2", "viewFile", .vobj .nil⟩
        1000 60000 0).2.2.1 (by decide) (by decide) (by decide)⟩

/-! ### C4 — idempotence of the duplicate check -/

/-- C4, counterexample: evaluating the combined duplicate check (exactly as
the orchestrator invokes it) twice in succession on the same fresh request,
with no intervening `trackExecution`, yields `false` then `true`: the
time-window check records a timestamp on every miss, so the second
evaluation sees the first.  This falsifies "returns the same boolean result
both times". -/
theorem c4_counterexample :
    (combinedDupCheck emptyTracker ⟨"t1", "viewFile", .vobj .nil⟩ 500).1 = false ∧
    (combinedDupCheck (combinedDupCheck emptyTracker ⟨"t1", "viewFile", .vobj .nil⟩ 500).2
        ⟨"t1", "viewFile", .vobj .nil⟩ 500).1 = true := by
  constructor <;> decide

/-- C4, amended: `isDuplicate` alone is pure, but the combined check the
orchestrator uses is not idempotent.  Evaluating it twice in succession
(same request, same clock reading, no intervening `trackExecution`): a
`true` first answer repeats, a `false` first answer for a request with a
non-empty name flips to `true` (the miss recorded its timestamp), and only
requests with an empty name always repeat their answer. -/
theorem c4_theorem (tr : Tracker) (t : ToolUse) (now : Nat) :
    ((combinedDupCheck tr t now).1 = true →
      (combinedDupCheck (combinedDupCheck tr t now).2 t now).1 = true) ∧
    (t.name ≠ "" → (combinedDupCheck tr t now).1 = false →
      (combinedDupCheck (combinedDupCheck tr t now).2 t now).1 = true) ∧
    (t.name = "" →
      (combinedDupCheck (combinedDupCheck tr t now).2 t now).1 = (combinedDupCheck tr t now).1) := by
  by_cases hdup : tr.isDuplicate t = true
  · refine ⟨?_, ?_, ?_⟩
    · intro _; simp [combinedDupCheck, hdup]
    · intro _ hfalse; simp [combinedDupCheck, hdup] at hfalse
    · intro _; simp [combinedDupCheck, hdup]
  · have hdup' : tr.isDuplicate t = false := by
      cases h : tr.isDuplicate t
      · rfl
      · exact absurd h hdup
    by_cases hname : t.name = ""
    · have hwin : tr.isDuplicateWithTimeWindow t now 60000 = (false, tr) := by
        simp [Tracker.isDuplicateWithTimeWindow, hname]
      refine ⟨?_, ?_, ?_⟩
      · intro htrue
        simp [combinedDupCheck, hdup', hwin] at htrue
      · intro hne; exact absurd hname hne
      · intro _
        simp [combinedDupCheck, hdup', hwin]
    · refine ⟨?_, ?_, ?_⟩
      · intro htrue
        simp only [combinedDupCheck, hdup', if_false, Bool.false_eq_true] at htrue ⊢
        simp only [Tracker.isDuplicateWithTimeWindow, if_neg hname] at htrue ⊢
        rcases hl : lookupTW tr.timeWindowedSignatures (createToolSignature t.name t.input) with
          _ | lastT
        · simp [hl] at htrue
        · simp only [hl] at htrue
          by_cases hw : now - lastT < 60000
          · simp only [if_pos hw] at htrue ⊢
            simp [hdup', Tracker.isDuplicate] at htrue ⊢
            simp [combinedDupCheck, hdup', Tracker.isDuplicateWithTimeWindow, if_neg hname, hl, hw]
          · simp [if_neg hw] at htrue
      · intro _ hfalse
        simp only [combinedDupCheck, hdup', if_false, Bool.false_eq_true] at hfalse ⊢
        have hdup'' : ((tr.isDuplicateWithTimeWindow t now 60000).2).isDuplicate t = false := by
          simp only [Tracker.isDuplicateWithTimeWindow, if_neg hname]
          rcases hl : lookupTW tr.timeWindowedSignatures (createToolSignature t.name t.input) with
            _ | lastT
          · simpa [Tracker.isDuplicate] using hdup'
          · by_cases hw : now - lastT < 60000
            · simpa [hl, hw, Tracker.isDuplicate] using hdup'
            · simpa [hl, hw, Tracker.isDuplicate] using hdup'
        simp only [hdup'', if_false, Bool.false_eq_true]
        simp only [Tracker.isDuplicateWithTimeWindow, if_neg hname] at hfalse ⊢
        rcases hl : lookupTW tr.timeWindowedSignatures (createToolSignature t.name t.input) with
          _ | lastT
        · simp only [hl, lookupTW_setTW_self]
          simp [Nat.sub_self]
        · simp only [hl] at hfalse
          by_cases hw : now - lastT < 60000
          · simp [hw] at hfalse
          · simp only [if_neg hw]
            simp only [lookupTW_setTW_self]
            simp [Nat.sub_self]
      · intro hname'; exact absurd hname' hname

/-- C4, witness for the amended theorem: on a fresh tracker the combined
check answers `false`, and the immediate re-evaluation answers `true`. -/
theorem c4_witness :
    (("viewFile" : String) ≠ "" ∧
      (combinedDupCheck emptyTracker ⟨"t1", "viewFile", .vobj .nil⟩ 500).1 = false) ∧
    (combinedDupCheck (combinedDupCheck emptyTracker ⟨"t1", "viewFile", .vobj .nil⟩ 500).2
        ⟨"t1", "viewFile", .vobj .nil⟩ 500).1 = true :=
  ⟨⟨by decide, by decide⟩,
   (c4_theorem emptyTracker ⟨"t1", "viewFile", .vobj .nil⟩ 500).2.1
     (by decide) (by decide)⟩

/-! ### C8 — the assembler's final-parse behaviour at `content_block_stop` -/

theorem string_empty_append (s : String) : "" ++ s = s := by simp

/-- One step of the stream loop, for controlled unfolding. -/
theorem processStream_cons (jp : String → Option Value) (e : SEv) (rest : List SEv)
    (st : StreamSt) :
    processStream jp (e :: rest) st =
      ((processStream jp rest (streamStep jp st e).1).1,
       (streamStep jp st e).2 ++ (processStream jp rest (streamStep jp st e).1).2) := rfl

/-- Processing the fragment deltas and the closing stop frame when no
accumulated buffer ever passes the brace guard with a successful parse:
the request's arguments stay whatever they were. -/
theorem processDeltas_no_success (jp : String → Option Value) :
    ∀ (ds : List String) (st : StreamSt) (i n : String) (cur : Value) (acc : String),
      st.toolUseRequests = [⟨i, n, cur⟩] → st.currentToolUseId = some i →
      st.skippingDuplicateTool = false → st.currentToolInputJson = acc →
      (∀ b ∈ bufPrefixesAux acc ds, braceGuard b = false ∨ jp b = none) →
      (processStream jp
          (ds.map (fun s => SEv.contentBlockDelta (.inputJsonDelta s)) ++ [SEv.contentBlockStop])
          st).1.toolUseRequests = [⟨i, n, cur⟩] := by
  intro ds
  induction ds with
  | nil =>
    intro st i n cur acc hreq _ _ _ _
    simpa [processStream, streamStep] using hreq
  | cons s rest ih =>
    intro st i n cur acc hreq hcid hskip hbuf h
    have hhead := h (acc ++ s) (by simp [bufPrefixesAux])
    have htail : ∀ b ∈ bufPrefixesAux (acc ++ s) rest, braceGuard b = false ∨ jp b = none := by
      intro b hb
      exact h b (by simp [bufPrefixesAux, hb])
    simp only [List.map_cons, List.cons_append]
    rw [processStream_cons]
    simp only [streamStep, hcid, hskip, hbuf, Bool.false_eq_true, if_false]
    rcases hhead with hg | hp
    · simp only [hg, Bool.false_eq_true, if_false]
      refine ih _ i n cur (acc ++ s) ?_ ?_ ?_ ?_ htail
      · exact hreq
      · rfl
      · rfl
      · rfl
    · by_cases hg : braceGuard (acc ++ s) = true
      · simp only [hg, if_true, hp]
        refine ih _ i n cur (acc ++ s) ?_ ?_ ?_ ?_ htail
        · exact hreq
        · rfl
        · rfl
        · rfl
      · simp only [Bool.not_eq_true] at hg
        simp only [hg, Bool.false_eq_true, if_false]
        refine ih _ i n cur (acc ++ s) ?_ ?_ ?_ ?_ htail
        · exact hreq
        · rfl
        · rfl
        · rfl

/-- Processing the fragment deltas and the closing stop frame when the
complete accumulated buffer passes the brace guard and parses: the final
delta's parse wins, whatever happened before. -/
theorem processDeltas_final_success (jp : String → Option Value) :
    ∀ (ds : List String) (s : String) (st : StreamSt) (i n : String) (cur : Value)
      (acc : String) (v : Value),
      st.toolUseRequests = [⟨i, n, cur⟩] → st.currentToolUseId = some i →
      st.skippingDuplicateTool = false → st.currentToolInputJson = acc →
      braceGuard (acc ++ concatStrs (s :: ds)) = true →
      jp (acc ++ concatStrs (s :: ds)) = some v →
      (processStream jp
          ((s :: ds).map (fun s => SEv.contentBlockDelta (.inputJsonDelta s)) ++ [SEv.contentBlockStop])
          st).1.toolUseRequests = [⟨i, n, v⟩] := by
  intro ds
  induction ds with
  | nil =>
    intro s st i n cur acc v hreq hcid hskip hbuf hg hp
    simp only [concatStrs] at hg hp
    simp only [List.map_cons, List.map_nil, List.cons_append, List.nil_append]
    rw [processStream_cons]
    simp only [streamStep, hcid, hskip, hbuf, Bool.false_eq_true, if_false]
    simp only [hg, if_true, hp]
    simp [processStream, streamStep, hreq, updateFirst]
  | cons s₂ rest ih =>
    intro s st i n cur acc v hreq hcid hskip hbuf hg hp
    have hassoc : acc ++ concatStrs (s :: s₂ :: rest) = (acc ++ s) ++ concatStrs (s₂ :: rest) := by
      show acc ++ (s ++ concatStrs (s₂ :: rest)) = acc ++ s ++ concatStrs (s₂ :: rest)
      rw [String.append_assoc]
    rw [hassoc] at hg hp
    simp only [List.map_cons, List.cons_append]
    rw [processStream_cons]
    simp only [streamStep, hcid, hskip, hbuf, Bool.false_eq_true, if_false]
    by_cases hg₁ : braceGuard (acc ++ s) = true
    · simp only [hg₁, if_true]
      rcases hp₁ : jp (acc ++ s) with _ | v₁
      · simp only [hp₁]
        refine ih s₂ _ i n cur (acc ++ s) v ?_ ?_ ?_ ?_ hg hp
        · exact hreq
        · rfl
        · rfl
        · rfl
      · simp only [hp₁]
        have hupd : updateFirst st.toolUseRequests i v₁ = [⟨i, n, v₁⟩] := by
          simp [hreq, updateFirst]
        refine ih s₂ _ i n v₁ (acc ++ s) v ?_ ?_ ?_ ?_ hg hp
        · exact hupd
        · rfl
        · rfl
        · rfl
    · simp only [Bool.not_eq_true] at hg₁
      simp only [hg₁, Bool.false_eq_true, if_false]
      refine ih s₂ _ i n cur (acc ++ s) v ?_ ?_ ?_ ?_ hg hp
      · exact hreq
      · rfl
      · rfl
      · rfl

/-- The loop state after the opening tool-use start frame in a fresh turn:
the request is accepted with the empty-object input and the per-block
assembly state is initialised. -/
theorem startstate_parts (jp : String → Option Value) (i n : String) (t : Nat) :
    ((streamStep jp (initStreamSt emptyTracker)
        (.contentBlockStart (.toolUseB i n none) t)).1.toolUseRequests
      = [⟨i, n, .vobj .nil⟩]) ∧
    ((streamStep jp (initStreamSt emptyTracker)
        (.contentBlockStart (.toolUseB i n none) t)).1.currentToolUseId = some i) ∧
    ((streamStep jp (initStreamSt emptyTracker)
        (.contentBlockStart (.toolUseB i n none) t)).1.skippingDuplicateTool = false) ∧
    ((streamStep jp (initStreamSt emptyTracker)
        (.contentBlockStart (.toolUseB i n none) t)).1.currentToolInputJson = "") := by
  by_cases hi : i = ""
  · subst hi
    by_cases hn : n = ""
    · subst hn
      simp [streamStep, CBlock.idOf, combinedDupCheck, Tracker.isDuplicate,
        Tracker.isDuplicateWithTimeWindow, initStreamSt, emptyTracker]
    · simp [streamStep, CBlock.idOf, combinedDupCheck, Tracker.isDuplicate,
        Tracker.isDuplicateWithTimeWindow, hn, initStreamSt, emptyTracker, lookupTW]
  · by_cases hn : n = ""
    · subst hn
      simp [streamStep, CBlock.idOf, combinedDupCheck, Tracker.isDuplicate,
        Tracker.isDuplicateWithTimeWindow, hi, initStreamSt, emptyTracker, addSet]
    · simp [streamStep, CBlock.idOf, combinedDupCheck, Tracker.isDuplicate,
        Tracker.isDuplicateWithTimeWindow, hi, hn, initStreamSt, emptyTracker, addSet, lookupTW]

/-- C8: the claim asserts that the assembler makes one final parse attempt
when the `content-block-stop` frame arrives.  It does not: the stop handler
only resets the per-block state (`currentToolUseId`, the fragment buffer and
the skip flag) and never calls the parser.  Below, the fragment deltas
`"4"`, `"2"` accumulate the buffer `"42"`, which is parseable JSON at block
close (second conjunct), yet the request's arguments remain the empty
object — under the claimed final parse attempt they would have become
`42`. -/
theorem c8_counterexample :
    (processStream jsonParse (toolBlockTrace "t1" "viewFile" 0 ["4", "2"])
        (initStreamSt emptyTracker)).1.toolUseRequests
      = [⟨"t1", "viewFile", .vobj .nil⟩] ∧
    jsonParse "42" = some (.vnum 42) := by
  constructor <;> decide

/-- C8, amended: on `content-block-stop` the assembler makes *no* parse
attempt — the stop handler only resets the per-block state (first
conjunct; the right-hand side does not involve the parser).  Parsing is
opportunistic after each delta, guarded by the trimmed buffer starting with
`{` and ending with `}`: if no guarded parse ever succeeds the arguments
remain what the start frame carried (the empty object; second conjunct),
and if the complete accumulated buffer passes the guard and parses — the
buffer that only becomes a complete JSON object at the final delta — the
arguments are the parsed object, via the final delta's parse rather than a
stop-time parse (third conjunct). -/
theorem c8_theorem (jp : String → Option Value) :
    (∀ st : StreamSt, streamStep jp st .contentBlockStop =
      ({ st with currentToolUseId := none, currentToolInputJson := "",
                 skippingDuplicateTool := false }, [])) ∧
    (∀ (i n : String) (t : Nat) (ds : List String),
      (∀ b ∈ bufPrefixesAux "" ds, braceGuard b = false ∨ jp b = none) →
      (processStream jp (toolBlockTrace i n t ds)
          (initStreamSt emptyTracker)).1.toolUseRequests = [⟨i, n, .vobj .nil⟩]) ∧
    (∀ (i n : String) (t : Nat) (s : String) (ds : List String) (v : Value),
      braceGuard (concatStrs (s :: ds)) = true → jp (concatStrs (s :: ds)) = some v →
      (processStream jp (toolBlockTrace i n t (s :: ds))
          (initStreamSt emptyTracker)).1.toolUseRequests = [⟨i, n, v⟩]) := by
  refine ⟨fun st => rfl, ?_, ?_⟩
  · intro i n t ds h
    obtain ⟨h1, h2, h3, h4⟩ := startstate_parts jp i n t
    show (processStream jp
        (SEv.contentBlockStart (.toolUseB i n none) t ::
          (ds.map (fun s => SEv.contentBlockDelta (.inputJsonDelta s)) ++ [SEv.contentBlockStop]))
        (initStreamSt emptyTracker)).1.toolUseRequests = [⟨i, n, .vobj .nil⟩]
    simp only [processStream]
    exact processDeltas_no_success jp ds _ i n (.vobj .nil) "" h1 h2 h3 h4 h
  · intro i n t s ds v hg hp
    obtain ⟨h1, h2, h3, h4⟩ := startstate_parts jp i n t
    show (processStream jp
        (SEv.contentBlockStart (.toolUseB i n none) t ::
          ((s :: ds).map (fun s => SEv.contentBlockDelta (.inputJsonDelta s)) ++ [SEv.contentBlockStop]))
        (initStreamSt emptyTracker)).1.toolUseRequests = [⟨i, n, v⟩]
    simp only [processStream]
    exact processDeltas_final_success jp ds s _ i n (.vobj .nil) "" v h1 h2 h3 h4
      (by rwa [string_empty_append]) (by rwa [string_empty_append])

/-- C8, witness for the amended theorem: a buffer split as
`{"a"` + `:1}` only becomes a complete object at the final delta and is
parsed there. -/
theorem c8_witness :
    braceGuard (concatStrs ["\x7b\"a\"", ":1\x7d"]) = true ∧
    jsonParse (concatStrs ["\x7b\"a\"", ":1\x7d"]) = some (.vobj (.cons "a" (.vnum 1) .nil)) ∧
    (processStream jsonParse (toolBlockTrace "t1" "viewFile" 0 ["\x7b\"a\"", ":1\x7d"])
        (initStreamSt emptyTracker)).1.toolUseRequests
      = [⟨"t1", "viewFile", .vobj (.cons "a" (.vnum 1) .nil)⟩] :=
  ⟨by decide, by decide,
    (c8_theorem jsonParse).2.2 "t1" "viewFile" 0 "\x7b\"a\"" [":1\x7d"]
      (.vobj (.cons "a" (.vnum 1) .nil)) (by decide) (by decide)⟩

/-! ### C10 — the duplicate check fires on the start frame's (empty) input -/

theorem updateFirst_map_id (l : List ToolUse) (tid : String) (v : Value) :
    (updateFirst l tid v).map ToolUse.id = l.map ToolUse.id := by
  induction l with
  | nil => rfl
  | cons r rest ih =>
    by_cases h : r.id = tid
    · simp [updateFirst, h]
    · simp [updateFirst, h, ih]

/-- `processStream` is a fold, so it distributes over append. -/
theorem processStream_append (jp : String → Option Value) (l₁ l₂ : List SEv) (st : StreamSt) :
    processStream jp (l₁ ++ l₂) st =
      ((processStream jp l₂ (processStream jp l₁ st).1).1,
       (processStream jp l₁ st).2 ++ (processStream jp l₂ (processStream jp l₁ st).1).2) := by
  induction l₁ generalizing st with
  | nil => simp [processStream]
  | cons e rest ih =>
    simp only [List.cons_append, processStream_cons, ih, List.append_assoc]

/-- Delta and stop frames never touch the tracker, and never change the
identities of the collected requests. -/
theorem processMid_invariant (jp : String → Option Value) :
    ∀ (mid : List SEv) (st : StreamSt), (∀ e ∈ mid, midOk e = true) →
      (processStream jp mid st).1.tracker = st.tracker ∧
      (processStream jp mid st).1.toolUseRequests.map ToolUse.id
        = st.toolUseRequests.map ToolUse.id := by
  intro mid
  induction mid with
  | nil => intro st _; exact ⟨rfl, rfl⟩
  | cons e rest ih =>
    intro st hmid
    have he : midOk e = true := hmid e (by simp)
    have hrest : ∀ e ∈ rest, midOk e = true := fun e h => hmid e (by simp [h])
    have hstep : (streamStep jp st e).1.tracker = st.tracker ∧
        (streamStep jp st e).1.toolUseRequests.map ToolUse.id
          = st.toolUseRequests.map ToolUse.id := by
      cases e with
      | contentBlockDelta d =>
        cases d with
        | textDelta s => exact ⟨rfl, rfl⟩
        | inputJsonDelta s =>
          simp only [streamStep]
          rcases hc : st.currentToolUseId with _ | tid
          · exact ⟨rfl, rfl⟩
          · by_cases hs : st.skippingDuplicateTool = true
            · simp [hs]
            · simp only [Bool.not_eq_true] at hs
              simp only [hs, Bool.false_eq_true, if_false]
              by_cases hg : braceGuard (st.currentToolInputJson ++ s) = true
              · simp only [hg, if_true]
                rcases hp : jp (st.currentToolInputJson ++ s) with _ | v
                · exact ⟨rfl, rfl⟩
                · exact ⟨rfl, updateFirst_map_id _ _ _⟩
              · simp only [Bool.not_eq_true] at hg
                simp [hg]
        | otherDelta => exact ⟨rfl, rfl⟩
      | contentBlockStop => exact ⟨rfl, rfl⟩
      | errorEv => simp [midOk] at he
      | messageStart => simp [midOk] at he
      | contentBlockStart b t => simp [midOk] at he
      | messageStop => simp [midOk] at he
    rw [processStream_cons]
    have := ih (streamStep jp st e).1 hrest
    exact ⟨this.1.trans hstep.1, this.2.trans hstep.2⟩

/-- A tool-use start frame whose signature was recorded within the window
is skipped: the request list is unchanged and a `skipped_duplicate_tool`
event is emitted. -/
theorem step_skip (jp : String → Option Value) (st : StreamSt) (i n : String) (t : Nat)
    (hi : i ≠ "") (hbid : i ∉ st.tracker.contentBlockIds)
    (hids : st.tracker.toolIds = []) (hsigs : st.tracker.toolSignatures = [])
    (hn : n ≠ "") (lastT : Nat)
    (hl : lookupTW st.tracker.timeWindowedSignatures
      (createToolSignature n (.vobj .nil)) = some lastT)
    (hw : t - lastT < 60000) :
    (streamStep jp st (.contentBlockStart (.toolUseB i n none) t)).1.toolUseRequests
      = st.toolUseRequests ∧
    (streamStep jp st (.contentBlockStart (.toolUseB i n none) t)).2
      = [.skippedDuplicate i n] := by
  simp only [streamStep, CBlock.idOf, if_neg hi]
  rw [if_neg hbid]
  simp only [combinedDupCheck, Tracker.isDuplicate, Tracker.isDuplicateWithTimeWindow,
    Option.getD]
  simp [hids, hsigs, hn, hl, hw]

/-- C10: the orchestrator evaluates the duplicate check at the
`content_block_start` frame, with only the input that frame carries — the
empty object when the arguments arrive later as `input_json_delta`
fragments.  For two tool-use requests with the same name whose start frames
carry empty input, arriving within the 60 s window in one turn, the second
is skipped as a duplicate (a `skipped_duplicate_tool` event is emitted and
it is never added to the accepted requests), no matter what argument
fragments arrive for the first request in between — even though the
finalized arguments of the two requests may differ. -/
theorem c10_theorem (jp : String → Option Value) (n id₁ id₂ : String) (t₁ t₂ : Nat)
    (mid : List SEv) (hn : n ≠ "") (h₁ : id₁ ≠ "") (h₂ : id₂ ≠ "") (hne : id₂ ≠ id₁)
    (hmid : ∀ e ∈ mid, midOk e = true) (hwin : t₂ - t₁ < 60000) :
    (processStream jp
        (SEv.contentBlockStart (.toolUseB id₁ n none) t₁ ::
          (mid ++ [SEv.contentBlockStart (.toolUseB id₂ n none) t₂]))
        (initStreamSt emptyTracker)).1.toolUseRequests.map ToolUse.id = [id₁] ∧
    OutEv.skippedDuplicate id₂ n ∈
      (processStream jp
        (SEv.contentBlockStart (.toolUseB id₁ n none) t₁ ::
          (mid ++ [SEv.contentBlockStart (.toolUseB id₂ n none) t₂]))
        (initStreamSt emptyTracker)).2 := by
  have hstart : streamStep jp (initStreamSt emptyTracker)
      (.contentBlockStart (.toolUseB id₁ n none) t₁) =
      (⟨⟨0, 0, [], [], [(createToolSignature n (.vobj .nil), t₁)], [id₁]⟩,
        [⟨id₁, n, .vobj .nil⟩], "", "", some id₁, false, none⟩, []) := by
    simp [streamStep, CBlock.idOf, h₁, initStreamSt, emptyTracker, addSet, combinedDupCheck,
      Tracker.isDuplicate, Tracker.isDuplicateWithTimeWindow, hn, lookupTW, setTW]
  rw [processStream_cons, hstart, processStream_append, processStream_cons]
  obtain ⟨htr, hids⟩ := processMid_invariant jp mid
    (⟨⟨0, 0, [], [], [(createToolSignature n (.vobj .nil), t₁)], [id₁]⟩,
      [⟨id₁, n, .vobj .nil⟩], "", "", some id₁, false, none⟩ : StreamSt) hmid
  have hblk : id₂ ∉ (processStream jp mid
      (⟨⟨0, 0, [], [], [(createToolSignature n (.vobj .nil), t₁)], [id₁]⟩,
        [⟨id₁, n, .vobj .nil⟩], "", "", some id₁, false, none⟩ : StreamSt)).1.tracker.contentBlockIds := by
    rw [htr]
    simp [hne]
  have hskip := step_skip jp _ id₂ n t₂ h₂ hblk (by rw [htr]) (by rw [htr]) hn t₁
    (by rw [htr]; simp [lookupTW]) hwin
  constructor
  · simp only [processStream]
    rw [hskip.1, hids]
    rfl
  · simp only [processStream]
    rw [hskip.2]
    simp

/-- C10, witness at a concrete input: the first request's arguments are
finalized to `{"a": 1}` by a delta between the two starts, the second
request (same tool, empty start input) is still skipped. -/
theorem c10_witness :
    ("viewFile" : String) ≠ "" ∧ ("t1" : String) ≠ "" ∧ ("t2" : String) ≠ "" ∧
    ("t2" : String) ≠ "t1" ∧
    (∀ e ∈ [SEv.contentBlockDelta (.inputJsonDelta "\x7b\"a\":1\x7d"), SEv.contentBlockStop],
      midOk e = true) ∧
    (1000 : Nat) - 0 < 60000 ∧
    ((processStream jsonParse
        (SEv.contentBlockStart (.toolUseB "t1" "viewFile" none) 0 ::
          ([SEv.contentBlockDelta (.inputJsonDelta "\x7b\"a\":1\x7d"), SEv.contentBlockStop] ++
            [SEv.contentBlockStart (.toolUseB "t2" "viewFile" none) 1000]))
        (initStreamSt emptyTracker)).1.toolUseRequests.map ToolUse.id = ["t1"] ∧
      OutEv.skippedDuplicate "t2" "viewFile" ∈
        (processStream jsonParse
          (SEv.contentBlockStart (.toolUseB "t1" "viewFile" none) 0 ::
            ([SEv.contentBlockDelta (.inputJsonDelta "\x7b\"a\":1\x7d"), SEv.contentBlockStop] ++
              [SEv.contentBlockStart (.toolUseB "t2" "viewFile" none) 1000]))
          (initStreamSt emptyTracker)).2) :=
  ⟨by decide, by decide, by decide, by decide, by decide, by decide,
    c10_theorem jsonParse "viewFile" "t1" "t2" 0 1000
      [SEv.contentBlockDelta (.inputJsonDelta "\x7b\"a\":1\x7d"), SEv.contentBlockStop]
      (by decide) (by decide) (by decide) (by decide) (by decide) (by decide)⟩

/-! ### C6 — chunk-boundary invariance of the frame decoder -/

theorem extractRecords_no_records :
    ∀ l : List Char, (extractRecords l).1 = [] → (extractRecords l).2 = l := by
  intro l
  induction l using extractRecords.induct with
  | case1 => intro _; rfl
  | case2 c => intro _; rfl
  | case3 c₁ c₂ rest hb ih =>
    intro h
    obtain ⟨h1, h2⟩ := hb
    subst h1; subst h2
    simp [extractRecords] at h
  | case4 c₁ c₂ rest hb lo heq ih =>
    intro _
    have hlo : lo = c₂ :: rest := by
      have h' := ih (by rw [heq])
      rw [heq] at h'
      exact h'
    simp only [extractRecords, if_neg hb, heq]
    rw [hlo]
  | case5 c₁ c₂ rest hb r rs lo heq ih =>
    intro h
    simp [extractRecords, if_neg hb, heq] at h

theorem extractRecords_leftover :
    ∀ l : List Char, (extractRecords (extractRecords l).2).1 = [] := by
  intro l
  induction l using extractRecords.induct with
  | case1 => rfl
  | case2 c => rfl
  | case3 c₁ c₂ rest hb ih =>
    obtain ⟨h1, h2⟩ := hb
    subst h1; subst h2
    simpa [extractRecords] using ih
  | case4 c₁ c₂ rest hb lo heq ih =>
    have hlo : lo = c₂ :: rest := by
      have h' := extractRecords_no_records (c₂ :: rest) (by rw [heq])
      rw [heq] at h'
      exact h'
    simp only [extractRecords, if_neg hb, heq]
    subst hlo
    simp only [extractRecords, if_neg hb, heq]
  | case5 c₁ c₂ rest hb r rs lo heq ih =>
    simp only [extractRecords, if_neg hb, heq]
    rw [heq] at ih
    exact ih

/-- The fundamental append property of the boundary splitter: splitting
`s ++ t` yields the records of `s` followed by the records obtained after
feeding `t` to `s`'s leftover. -/
theorem extractRecords_append :
    ∀ s t : List Char, extractRecords (s ++ t) =
      ((extractRecords s).1 ++ (extractRecords ((extractRecords s).2 ++ t)).1,
       (extractRecords ((extractRecords s).2 ++ t)).2) := by
  intro s
  induction s using extractRecords.induct with
  | case1 => intro t; simp [extractRecords]
  | case2 c => intro t; simp [extractRecords]
  | case3 c₁ c₂ rest hb ih =>
    intro t
    obtain ⟨h1, h2⟩ := hb
    subst h1; subst h2
    have hcond : ('\n' : Char) = '\n' ∧ ('\n' : Char) = '\n' := ⟨rfl, rfl⟩
    simp only [List.cons_append]
    simp only [extractRecords, if_pos hcond]
    rw [ih t]
    simp
  | case4 c₁ c₂ rest hb lo heq ih =>
    intro t
    have hlo : lo = c₂ :: rest := by
      have h' := extractRecords_no_records (c₂ :: rest) (by rw [heq])
      rw [heq] at h'
      exact h'
    subst hlo
    simp only [List.cons_append]
    simp only [extractRecords, if_neg hb, heq]
    simp only [List.cons_append, extractRecords, if_neg hb, List.append_eq, List.nil_append]
  | case5 c₁ c₂ rest hb r rs lo heq ih =>
    intro t
    have hiht := ih t
    rw [heq] at hiht
    simp only [List.cons_append] at hiht ⊢
    simp only [extractRecords, if_neg hb, heq, List.append_eq]
    rw [hiht]
    simp

theorem decodeLoop_flatten (jp : List Char → Option Value) :
    ∀ (cs : List (List Char)) (buf : List Char), (extractRecords buf).1 = [] →
      decodeLoop jp buf cs =
        (extractRecords (buf ++ cs.flatten)).1.filterMap (parseRecord jp) := by
  intro cs
  induction cs with
  | nil =>
    intro buf h
    simp [decodeLoop, h]
  | cons c cs ih =>
    intro buf h
    simp only [decodeLoop]
    rw [ih _ (extractRecords_leftover (buf ++ c))]
    have : buf ++ (c :: cs).flatten = (buf ++ c) ++ cs.flatten := by
      simp
    rw [this, extractRecords_append (buf ++ c) cs.flatten]
    simp [List.filterMap_append]

/-- C6: for every per-record parse function and every chunking of the byte
stream, the decoder emits the frame sequence determined by the
concatenation of the chunks alone — chunk boundaries are invisible. -/
theorem c6_theorem (jp : List Char → Option Value) (chunks : List (List Char)) :
    decodeChunks jp chunks = decodeChunks jp [chunks.flatten] := by
  unfold decodeChunks
  rw [decodeLoop_flatten jp chunks [] rfl, decodeLoop_flatten jp [chunks.flatten] [] rfl]
  simp

/-! ### C9 — a single malformed record is dropped, the stream continues -/

theorem hasBoundary_nonNl_append (A : List Char) :
    ∀ l : List Char, '\n' ∉ A → hasBoundary l = false → hasBoundary (A ++ l) = false := by
  induction A with
  | nil => intro l _ hl; simpa using hl
  | cons a A' ih =>
    intro l hA hl
    have ha : (a = '\n') = False := by
      simp only [eq_iff_iff, iff_false]
      intro h
      exact hA (by simp [h])
    have hA' : '\n' ∉ A' := fun h => hA (by simp [h])
    cases hAl : A' ++ l with
    | nil => simp [hAl, hasBoundary]
    | cons x xs =>
      have hx := ih l hA' hl
      rw [hAl] at hx
      simp only [List.cons_append, hAl, hasBoundary, hx]
      simp [ha]

/-- A record with no internal boundary and no trailing newline, followed by
the blank-line separator: the splitter cuts exactly there. -/
theorem extractRecords_record :
    ∀ u rest : List Char, hasBoundary (u ++ ['\n']) = false →
      extractRecords (u ++ '\n' :: '\n' :: rest) =
        (u :: (extractRecords rest).1, (extractRecords rest).2) := by
  intro u
  induction u with
  | nil => intro rest _; simp [extractRecords]
  | cons c u' ih =>
    intro rest hu
    cases u' with
    | nil =>
      have hc : (c = '\n') = False := by
        simp only [eq_iff_iff, iff_false]
        intro h
        subst h
        simp [hasBoundary] at hu
      simp only [List.cons_append, List.nil_append]
      simp only [extractRecords, hc]
      simp
    | cons c₂ u'' =>
      have hsplit : ¬(c = '\n' ∧ c₂ = '\n') := by
        intro ⟨h1, h2⟩
        subst h1; subst h2
        simp [hasBoundary] at hu
      have hu' : hasBoundary ((c₂ :: u'') ++ ['\n']) = false := by
        simp only [List.cons_append, hasBoundary] at hu
        rcases Bool.or_eq_false_iff.mp hu with ⟨_, h⟩
        simpa using h
      simp only [List.cons_append]
      simp only [extractRecords, if_neg hsplit]
      have := ih rest hu'
      simp only [List.cons_append] at this
      rw [this]

theorem hasBoundary_cons_cons (c₁ c₂ : Char) (rest : List Char) :
    hasBoundary (c₁ :: c₂ :: rest) = ((c₁ = '\n' && c₂ = '\n') || hasBoundary (c₂ :: rest)) :=
  rfl

theorem mkRecord_boundary_free (r : RecSpec) (h1 : '\n' ∉ r.etype) (h2 : '\n' ∉ r.edata) :
    hasBoundary (mkRecord r ++ ['\n']) = false := by
  have hdata : hasBoundary (r.edata ++ ['\n']) = false :=
    hasBoundary_nonNl_append r.edata ['\n'] h2 rfl
  have hdataLine : hasBoundary (("data: ".data ++ r.edata) ++ ['\n']) = false := by
    rw [List.append_assoc]
    exact hasBoundary_nonNl_append "data: ".data _ (by decide) hdata
  have hnlData : hasBoundary ('\n' :: (("data: ".data ++ r.edata) ++ ['\n'])) = false := by
    have hshape : ("data: ".data ++ r.edata) ++ ['\n']
        = 'd' :: (("ata: ".data ++ r.edata) ++ ['\n']) := rfl
    rw [hshape, hasBoundary_cons_cons, ← hshape]
    rw [hdataLine]
    decide
  have : mkRecord r ++ ['\n'] =
      ("event: ".data ++ r.etype) ++ ('\n' :: (("data: ".data ++ r.edata) ++ ['\n'])) := by
    simp [mkRecord]
  rw [this]
  refine hasBoundary_nonNl_append _ _ ?_ hnlData
  intro hmem
  rcases List.mem_append.mp hmem with h | h
  · revert h; decide
  · exact h1 h

theorem extractRecords_encode :
    ∀ recs : List RecSpec, (∀ r ∈ recs, '\n' ∉ r.etype ∧ '\n' ∉ r.edata) →
      extractRecords (encode recs) = (recs.map mkRecord, []) := by
  intro recs
  induction recs with
  | nil => intro _; rfl
  | cons r rest ih =>
    intro h
    have hb := mkRecord_boundary_free r (h r (by simp)).1 (h r (by simp)).2
    have henc : encode (r :: rest) = mkRecord r ++ '\n' :: '\n' :: encode rest := by
      simp [encode]
    rw [henc, extractRecords_record (mkRecord r) (encode rest) hb,
      ih (fun r hr => h r (by simp [hr]))]
    simp

theorem splitNl_noNl : ∀ B : List Char, '\n' ∉ B → splitNl B = [B] := by
  intro B
  induction B with
  | nil => intro _; rfl
  | cons b B' ih =>
    intro h
    have hb : (b = '\n') = False := by
      simp only [eq_iff_iff, iff_false]
      intro hx
      exact h (by simp [hx])
    simp only [splitNl, hb, if_false]
    rw [ih (fun hx => h (by simp [hx]))]

theorem splitNl_sep : ∀ A B : List Char, '\n' ∉ A →
    splitNl (A ++ '\n' :: B) = A :: splitNl B := by
  intro A
  induction A with
  | nil => intro B _; simp [splitNl]
  | cons a A' ih =>
    intro B h
    have ha : (a = '\n') = False := by
      simp only [eq_iff_iff, iff_false]
      intro hx
      exact h (by simp [hx])
    simp only [List.cons_append, splitNl, ha, if_false, List.append_eq]
    rw [ih B (fun hx => h (by simp [hx]))]

/-- Processing one well-formed record: the frame kind is the trimmed event
type and the payload is the parse of the trimmed data; a failing parse
drops the record. -/
theorem parseRecord_mkRecord (jp : List Char → Option Value) (r : RecSpec)
    (h1 : '\n' ∉ r.etype) (h2 : '\n' ∉ r.edata) :
    parseRecord jp (mkRecord r) =
      match jp (trimCh r.edata) with
      | some v => some ⟨trimCh r.etype, v⟩
      | none => none := by
  have hstart : startsWithCh "event:".data (mkRecord r) = true := by
    show startsWithCh "event:".data ("event: ".data ++ r.etype ++ _) = true
    simp [startsWithCh, String.data]
  have hlines : splitNl (mkRecord r) =
      ["event: ".data ++ r.etype, "data: ".data ++ r.edata] := by
    show splitNl (("event: ".data ++ r.etype) ++ '\n' :: ("data: ".data ++ r.edata)) = _
    rw [splitNl_sep _ _ ?_]
    · rw [splitNl_noNl _ ?_]
      intro hmem
      rcases List.mem_append.mp hmem with h | h
      · revert h; decide
      · exact h2 h
    · intro hmem
      rcases List.mem_append.mp hmem with h | h
      · revert h; decide
      · exact h1 h
  have hfind : (splitNl (mkRecord r)).find?
      (fun line => startsWithCh "data:".data line) = some ("data: ".data ++ r.edata) := by
    rw [hlines]
    simp [List.find?, startsWithCh, String.data]
  simp only [parseRecord, hstart, if_true, hfind]
  have hdropData : ("data: ".data ++ r.edata).drop 6 = r.edata := by
    simp [String.data]
  rw [hdropData]
  have hhead : (splitNl (mkRecord r)).headD ([] : List Char) = "event: ".data ++ r.etype := by
    rw [hlines]; rfl
  rw [hhead]
  have hdrop : ("event: ".data ++ r.etype).drop 7 = r.etype := by
    simp [String.data]
  rw [hdrop]

/-- All-parses-succeed segment of the stream: every record becomes a frame. -/
theorem filterMap_parse_all_ok (jp : List Char → Option Value) (fv : RecSpec → Value) :
    ∀ l : List RecSpec, (∀ r ∈ l, '\n' ∉ r.etype ∧ '\n' ∉ r.edata) →
      (∀ r ∈ l, jp (trimCh r.edata) = some (fv r)) →
      (l.map mkRecord).filterMap (parseRecord jp)
        = l.map (fun r => ⟨trimCh r.etype, fv r⟩) := by
  intro l
  induction l with
  | nil => intro _ _; rfl
  | cons r rest ih =>
    intro hnl hok
    have hr := parseRecord_mkRecord jp r (hnl r (by simp)).1 (hnl r (by simp)).2
    rw [hok r (by simp)] at hr
    simp only [List.map_cons, List.filterMap_cons, hr]
    rw [ih (fun x hx => hnl x (by simp [hx])) (fun x hx => hok x (by simp [hx]))]

/-- C9: in a stream whose records are all well-formed and where exactly one
record's data line fails to parse, the decoder drops only that record: all
well-formed records before and after it are emitted as frames, in order,
and the stream is never aborted. -/
theorem c9_theorem (jp : List Char → Option Value) (pre post : List RecSpec) (bad : RecSpec)
    (fv : RecSpec → Value)
    (hnl : ∀ r ∈ pre ++ bad :: post, '\n' ∉ r.etype ∧ '\n' ∉ r.edata)
    (hok : ∀ r ∈ pre ++ post, jp (trimCh r.edata) = some (fv r))
    (hbad : jp (trimCh bad.edata) = none) :
    decodeChunks jp [encode (pre ++ bad :: post)] =
      (pre ++ post).map (fun r => ⟨trimCh r.etype, fv r⟩) := by
  unfold decodeChunks
  rw [decodeLoop_flatten jp [encode (pre ++ bad :: post)] [] rfl]
  have hflat : ([] : List Char) ++ [encode (pre ++ bad :: post)].flatten
      = encode (pre ++ bad :: post) := by simp
  rw [hflat, extractRecords_encode _ hnl]
  have hbadrec : parseRecord jp (mkRecord bad) = none := by
    rw [parseRecord_mkRecord jp bad (hnl bad (by simp)).1 (hnl bad (by simp)).2, hbad]
  simp only [List.map_append, List.map_cons, List.filterMap_append, List.filterMap_cons, hbadrec]
  rw [filterMap_parse_all_ok jp fv pre
      (fun x hx => hnl x (by simp [hx])) (fun x hx => hok x (by simp [hx])),
    filterMap_parse_all_ok jp fv post
      (fun x hx => hnl x (by simp [hx])) (fun x hx => hok x (by simp [hx]))]

/-- C9, witness: a three-record stream whose middle record carries
malformed JSON; the first and last records are still emitted. -/
theorem c9_witness :
    (∀ r ∈ [RecSpec.mk "message_start".data "{}".data,
            RecSpec.mk "content_block_start".data "\x7boops".data,
            RecSpec.mk "message_stop".data "{}".data],
      '\n' ∉ r.etype ∧ '\n' ∉ r.edata) ∧
    (∀ r ∈ [RecSpec.mk "message_start".data "{}".data,
            RecSpec.mk "message_stop".data "{}".data],
      jsonParseCh (trimCh r.edata) = some (Value.vobj .nil)) ∧
    jsonParseCh (trimCh ("\x7boops".data)) = none ∧
    decodeChunks jsonParseCh
        [encode [RecSpec.mk "message_start".data "{}".data,
                 RecSpec.mk "content_block_start".data "\x7boops".data,
                 RecSpec.mk "message_stop".data "{}".data]] =
      [⟨trimCh "message_start".data, Value.vobj .nil⟩,
       ⟨trimCh "message_stop".data, Value.vobj .nil⟩] :=
  ⟨by decide, by decide, by decide,
    c9_theorem jsonParseCh [RecSpec.mk "message_start".data "{}".data]
      [RecSpec.mk "message_stop".data "{}".data]
      (RecSpec.mk "content_block_start".data "\x7boops".data)
      (fun _ => Value.vobj .nil) (by decide) (by decide) (by decide)⟩

/-! ### C5 — the recursion-depth circuit breaker -/

theorem combinedDupCheck_depth (tr : Tracker) (t : ToolUse) (now : Nat) :
    (combinedDupCheck tr t now).2.recursionDepth = tr.recursionDepth := by
  rw [combinedDupCheck]
  by_cases h : tr.isDuplicate t = true
  · simp [h]
  · simp only [Bool.not_eq_true] at h
    simp only [h, Bool.false_eq_true, if_false]
    rw [Tracker.isDuplicateWithTimeWindow]
    by_cases hn : t.name = ""
    · simp [hn]
    · simp only [if_neg hn]
      rcases lookupTW tr.timeWindowedSignatures (createToolSignature t.name t.input) with
        _ | lastT
      · simp
      · by_cases hw : now - lastT < 60000 <;> simp [hw]

theorem streamStep_depth (jp : String → Option Value) (st : StreamSt) (e : SEv) :
    (streamStep jp st e).1.tracker.recursionDepth = st.tracker.recursionDepth := by
  cases e with
  | errorEv => rfl
  | messageStart => rfl
  | messageStop => rfl
  | contentBlockStop => rfl
  | contentBlockDelta d =>
    cases d with
    | textDelta s => rfl
    | otherDelta => rfl
    | inputJsonDelta s =>
      simp only [streamStep]
      rcases st.currentToolUseId with _ | tid
      · rfl
      · by_cases hs : st.skippingDuplicateTool = true
        · simp [hs]
        · simp only [Bool.not_eq_true] at hs
          simp only [hs, Bool.false_eq_true, if_false]
          by_cases hg : braceGuard (st.currentToolInputJson ++ s) = true
          · simp only [hg, if_true]
            rcases jp (st.currentToolInputJson ++ s) with _ | v <;> rfl
          · simp only [Bool.not_eq_true] at hg
            simp [hg]
  | contentBlockStart b t =>
    simp only [streamStep]
    rcases hid : b.idOf with _ | bid
    · cases b with
      | toolUseB i n inp =>
        have := combinedDupCheck_depth st.tracker ⟨i, n, inp.getD (.vobj .nil)⟩ t
        by_cases hc : (combinedDupCheck st.tracker ⟨i, n, inp.getD (.vobj .nil)⟩ t).1 = true
        · simp [hc, this]
        · simp only [Bool.not_eq_true] at hc
          simp [hc, this]
      | textB => rfl
      | otherB => rfl
    · by_cases hmem : bid ∈ st.tracker.contentBlockIds
      · simp [hmem]
      · simp only [if_neg hmem]
        cases b with
        | toolUseB i n inp =>
          have := combinedDupCheck_depth
            { st.tracker with contentBlockIds := addSet st.tracker.contentBlockIds bid }
            ⟨i, n, inp.getD (.vobj .nil)⟩ t
          by_cases hc : (combinedDupCheck
              { st.tracker with contentBlockIds := addSet st.tracker.contentBlockIds bid }
              ⟨i, n, inp.getD (.vobj .nil)⟩ t).1 = true
          · simp [hc, this]
          · simp only [Bool.not_eq_true] at hc
            simp [hc, this]
        | textB => rfl
        | otherB => rfl

theorem processStream_depth (jp : String → Option Value) :
    ∀ (evs : List SEv) (st : StreamSt),
      (processStream jp evs st).1.tracker.recursionDepth = st.tracker.recursionDepth := by
  intro evs
  induction evs with
  | nil => intro st; rfl
  | cons e rest ih =>
    intro st
    rw [processStream_cons]
    exact (ih (streamStep jp st e).1).trans (streamStep_depth jp st e)

theorem trackExecution_depth (tr : Tracker) (t : ToolUse) (now : Nat) :
    (tr.trackExecution t now).recursionDepth = tr.recursionDepth := by
  rw [Tracker.trackExecution]
  by_cases h : t.id = "" ∨ t.name = "" <;> simp [h]

theorem foldl_track_depth (reqs : List ToolUse) (tT : Nat) :
    ∀ tr : Tracker,
      (reqs.foldl (fun t r => t.trackExecution r tT) tr).recursionDepth = tr.recursionDepth := by
  induction reqs with
  | nil => intro tr; rfl
  | cons r rest ih =>
    intro tr
    simp only [List.foldl_cons]
    exact (ih _).trans (trackExecution_depth tr r tT)

theorem remoteCall_not_in_streamOut (d : Nat) (l : List OutEv) :
    QEv.remoteCall d ∉ l.map QEv.streamOut := by
  simp

theorem remoteCall_not_in_finalResponse (d : Nat) (st : StreamSt) :
    QEv.remoteCall d ∉ finalResponseEvs st := by
  rw [finalResponseEvs]
  rcases st.finalStruct with _ | ⟨text, tus⟩
  · by_cases h : trimCh st.assistantResponseText.data ≠ [] <;> simp [h]
  · by_cases ht : text ≠ ""
    · simp [ht]
    · by_cases h : trimCh st.assistantResponseText.data ≠ [] <;> simp [ht, h]

/-- The depth-guard branch: entering with the shared counter at 5 or more
(so that the incremented value exceeds the bound) yields only the
depth-exceeded error, restores the counter, and consumes no script (makes
no remote call). -/
theorem c5_guard (jp : String → Option Value) (script : List RemoteResp) (tr : Tracker)
    (h5 : 5 ≤ tr.recursionDepth) :
    queryModel jp script tr = ([QEv.errorDepth], tr, script) := by
  have h0 : ¬ tr.recursionDepth = 0 := by omega
  cases script with
  | nil =>
    simp [queryModel, Tracker.incrementRecursionDepth, Tracker.decrementRecursionDepth, h0,
      show 5 < tr.recursionDepth + 1 from by omega]
  | cons resp rest =>
    cases resp <;>
      simp [queryModel, Tracker.incrementRecursionDepth, Tracker.decrementRecursionDepth, h0,
        show 5 < tr.recursionDepth + 1 from by omega]

set_option maxHeartbeats 1000000 in
/-- C5: (i) whenever the shared recursion-depth counter is already at the
maximum (5) or beyond on entry, the invocation yields exactly the
depth-exceeded error, decrements the counter back, and returns without
consuming any scripted remote response (so `queryClaude` is not invoked);
(ii) every remote call in any execution happens at a depth of at most 5;
(iii) the depth counter is restored on every exit path (to 0 for a
top-level call, which resets it on entry, and to the entry value
otherwise). -/
theorem c5_theorem (jp : String → Option Value) :
    ∀ (script : List RemoteResp) (tr : Tracker),
      (5 ≤ tr.recursionDepth → queryModel jp script tr = ([QEv.errorDepth], tr, script)) ∧
      (∀ d, QEv.remoteCall d ∈ (queryModel jp script tr).1 → d ≤ 5) ∧
      ((queryModel jp script tr).2.1.recursionDepth
        = if tr.recursionDepth = 0 then 0 else tr.recursionDepth) := by
  intro script
  induction script with
  | nil =>
    intro tr
    refine ⟨c5_guard jp [] tr, ?_, ?_⟩
    · intro d hd
      by_cases h5 : 5 ≤ tr.recursionDepth
      · rw [c5_guard jp [] tr h5] at hd
        simp at hd
      · simp only [queryModel, Tracker.incrementRecursionDepth, Tracker.resetForNewQuery,
          finishTurn, Tracker.decrementRecursionDepth] at hd
        split_ifs at hd <;> simp_all
    · by_cases h5 : 5 ≤ tr.recursionDepth
      · rw [c5_guard jp [] tr h5]
        have h0 : ¬ tr.recursionDepth = 0 := by omega
        simp [h0]
      · simp only [queryModel, Tracker.incrementRecursionDepth, Tracker.resetForNewQuery,
          finishTurn, Tracker.decrementRecursionDepth]
        split_ifs <;> simp_all
  | cons resp rest ih =>
    intro tr
    refine ⟨c5_guard jp (resp :: rest) tr, ?_, ?_⟩
    · intro d hd
      by_cases h5 : 5 ≤ tr.recursionDepth
      · rw [c5_guard jp (resp :: rest) tr h5] at hd
        simp at hd
      · cases resp with
        | fails =>
          simp only [queryModel, Tracker.incrementRecursionDepth, Tracker.resetForNewQuery,
            finishTurn, Tracker.decrementRecursionDepth] at hd
          split_ifs at hd <;> simp_all
        | stream evs tT =>
          simp only [queryModel, Tracker.incrementRecursionDepth, Tracker.resetForNewQuery,
            finishTurn, Tracker.decrementRecursionDepth] at hd
          split_ifs at hd <;>
            simp_all [remoteCall_not_in_finalResponse] <;>
            first
              | omega
              | exact (ih _).2.1 d hd
              | (rcases hd with hd | hd <;>
                  first
                    | omega
                    | exact (ih _).2.1 d hd)
    · by_cases h5 : 5 ≤ tr.recursionDepth
      · rw [c5_guard jp (resp :: rest) tr h5]
        have h0 : ¬ tr.recursionDepth = 0 := by omega
        simp [h0]
      · cases resp with
        | fails =>
          simp only [queryModel, Tracker.incrementRecursionDepth, Tracker.resetForNewQuery,
            finishTurn, Tracker.decrementRecursionDepth]
          split_ifs <;> simp_all
        | stream evs tT =>
          have ihd : ∀ t' : Tracker, (queryModel jp rest t').2.1.recursionDepth
              = if t'.recursionDepth = 0 then 0 else t'.recursionDepth :=
            fun t' => (ih t').2.2
          have hps : ∀ t' : Tracker,
              (processStream jp evs (initStreamSt t')).1.tracker.recursionDepth
                = t'.recursionDepth :=
            fun t' => processStream_depth jp evs (initStreamSt t')
          have hd3 : ∀ t' : Tracker, (List.foldl (fun t r => t.trackExecution r tT)
              (processStream jp evs (initStreamSt t')).1.tracker
              (processStream jp evs (initStreamSt t')).1.toolUseRequests).recursionDepth
                = t'.recursionDepth := by
            intro t'
            rw [foldl_track_depth]
            exact hps t'
          simp only [queryModel, Tracker.incrementRecursionDepth, Tracker.resetForNewQuery,
            finishTurn, Tracker.decrementRecursionDepth]
          split_ifs <;> simp_all

/-- C5, witness: a single scripted response with no tool requests at
depth 0 (remote call at depth 1, counter restored to 0), and the guard at
depth 5 (no remote call, script unconsumed). -/
theorem c5_witness :
    (5 ≤ (Tracker.mk 0 5 [] [] [] []).recursionDepth ∧
      queryModel jsonParse [RemoteResp.stream [] 0] (Tracker.mk 0 5 [] [] [] [])
        = ([QEv.errorDepth], Tracker.mk 0 5 [] [] [] [], [RemoteResp.stream [] 0])) ∧
    (QEv.remoteCall 1 ∈ (queryModel jsonParse [RemoteResp.stream [] 0] emptyTracker).1 ∧
      1 ≤ 5) ∧
    (queryModel jsonParse [RemoteResp.stream [] 0] emptyTracker).2.1.recursionDepth
      = if emptyTracker.recursionDepth = 0 then 0 else emptyTracker.recursionDepth :=
  ⟨⟨by decide,
    (c5_theorem jsonParse [RemoteResp.stream [] 0] (Tracker.mk 0 5 [] [] [] [])).1 (by decide)⟩,
   ⟨by decide,
    (c5_theorem jsonParse [RemoteResp.stream [] 0] emptyTracker).2.1 1 (by decide)⟩,
   (c5_theorem jsonParse [RemoteResp.stream [] 0] emptyTracker).2.2⟩

/-! ### C2 — reads complete before any write starts; writes are sequential -/

/-- Every generator that is active or still queued when the loop finishes
has had its task function settle (a `readComplete` event), unless it had
already settled: a generator can only be removed by observing a `done`
response, which requires its function to have settled. -/
theorem readLoop_complete (reads : List (FnOutcome α ε)) :
    ∀ (ds : List Decision) (st : RState) (tr : List (SchedEv α ε)),
      readLoop reads ds st = some tr →
      (st.active = [] → reads.length ≤ st.nextIdx) →
      ∀ i, ((∃ r, (i, r) ∈ st.active) ∨ (st.nextIdx ≤ i ∧ i < reads.length)) →
        i ∈ st.completedFns ∨ SchedEv.readComplete i ∈ tr := by
  intro ds
  induction ds with
  | nil =>
    intro st tr h hinv i hi
    simp only [readLoop] at h
    by_cases hact : st.active = []
    · rcases hi with ⟨r, hr⟩ | ⟨h1, h2⟩
      · rw [hact] at hr
        simp at hr
      · have := hinv hact
        omega
    · simp [hact] at h
  | cons d ds ih =>
    intro st tr h hinv i hi
    cases d with
    | issueRequests =>
      simp only [readLoop] at h
      by_cases hg : st.active ≠ [] ∧ st.requestsOutstanding = false
      · rw [if_pos hg] at h
        have h' := ih _ tr h ?_ i ?_
        · exact h'
        · intro hempty
          simp only [List.map_eq_nil_iff] at hempty
          exact absurd hempty hg.1
        · rcases hi with ⟨r, hr⟩ | hp
          · refine Or.inl ⟨r + 1, ?_⟩
            simp only [List.mem_map]
            exact ⟨(i, r), hr, rfl⟩
          · exact Or.inr hp
      · rw [if_neg hg] at h
        exact absurd h (by simp)
    | completeFn i' =>
      simp only [readLoop] at h
      by_cases hg : i' ∈ st.started ∧ i' ∉ st.completedFns
      · rw [if_pos hg] at h
        rcases Option.map_eq_some'.mp h with ⟨tr', htr', rfl⟩
        by_cases hii : i = i'
        · subst hii
          exact Or.inr (by simp)
        · rcases ih _ tr' htr' hinv i hi with hc | hm
          · simp only [List.mem_cons] at hc
            rcases hc with hc | hc
            · exact absurd hc hii
            · exact Or.inl hc
          · exact Or.inr (by simp [hm])
      · rw [if_neg hg] at h
        exact absurd h (by simp)
    | raceWin w =>
      simp only [readLoop] at h
      by_cases hg : st.requestsOutstanding = true ∧ w ∈ st.completedFns
      · rw [if_pos hg] at h
        rcases hlk : lookupReq st.active w with _ | r
        · simp only [hlk] at h
          exact absurd h (by simp)
        · simp only [hlk] at h
          by_cases hr1 : r = 1
          · rw [if_pos hr1] at h
            rcases hget : reads.get? w with _ | o
            · simp only [hget] at h
              exact absurd h (by simp)
            · simp only [hget] at h
              rcases Option.map_eq_some'.mp h with ⟨tr', htr', rfl⟩
              rcases ih _ tr' htr' hinv i hi with hc | hm
              · exact Or.inl hc
              · exact Or.inr (by simp [hm])
          · rw [if_neg hr1] at h
            by_cases hnx : st.nextIdx < reads.length
            · rw [if_pos hnx] at h
              by_cases hiw : i = w
              · subst hiw
                exact Or.inl hg.2
              · refine (ih _ tr h ?_ i ?_).imp id id
                · intro hempty
                  simp at hempty
                · rcases hi with ⟨r', hr'⟩ | ⟨h1, h2⟩
                  · refine Or.inl ⟨r', ?_⟩
                    simp only [List.mem_append, List.mem_filter]
                    exact Or.inl ⟨hr', by simp [hiw]⟩
                  · by_cases hin : i = st.nextIdx
                    · subst hin
                      exact Or.inl ⟨0, by simp⟩
                    · refine Or.inr ⟨?_, h2⟩
                      show st.nextIdx + 1 ≤ i
                      omega
            · rw [if_neg hnx] at h
              by_cases hiw : i = w
              · subst hiw
                exact Or.inl hg.2
              · refine (ih _ tr h ?_ i ?_).imp id id
                · intro _
                  show reads.length ≤ st.nextIdx
                  omega
                · rcases hi with ⟨r', hr'⟩ | ⟨h1, h2⟩
                  · refine Or.inl ⟨r', ?_⟩
                    simp only [List.mem_filter]
                    exact ⟨hr', by simp [hiw]⟩
                  · exact Or.inr ⟨h1, h2⟩
      · rw [if_neg hg] at h
        exact absurd h (by simp)

/-- The write phase emits a `writeStart j` for every index in its range. -/
theorem writeStart_mem (writes : List (FnOutcome α ε)) :
    ∀ j0 j, j0 ≤ j → j < j0 + writes.length →
      SchedEv.writeStart j ∈ writeTrace writes j0 := by
  induction writes with
  | nil =>
    intro j0 j h1 h2
    simp at h2
    omega
  | cons o rest ih =>
    intro j0 j h1 h2
    by_cases hj : j = j0
    · subst hj
      simp [writeTrace]
    · simp only [writeTrace, List.mem_cons]
      right; right; right
      refine ih (j0 + 1) j (by omega) ?_
      simp only [List.length_cons] at h2
      omega

/-- Within the write phase, each write's completion precedes the next
write's start. -/
theorem writeTrace_seq (writes : List (FnOutcome α ε)) :
    ∀ j0 j, j0 ≤ j → j + 1 < j0 + writes.length →
      SplitBefore (SchedEv.writeComplete j) (SchedEv.writeStart (j + 1))
        (writeTrace writes j0) := by
  induction writes with
  | nil =>
    intro j0 j h1 h2
    simp at h2
    omega
  | cons o rest ih =>
    intro j0 j h1 h2
    simp only [List.length_cons] at h2
    by_cases hj : j = j0
    · subst hj
      refine ⟨[SchedEv.writeStart j, SchedEv.writeComplete j,
               SchedEv.yieldWrite j (genYield o)],
              writeTrace rest (j + 1), rfl, by simp, ?_⟩
      exact writeStart_mem rest (j + 1) (j + 1) (le_refl _) (by omega)
    · rcases ih (j0 + 1) j (by omega) (by omega) with ⟨l₁, l₂, heq, ha, hb⟩
      refine ⟨SchedEv.writeStart j0 :: SchedEv.writeComplete j0 ::
                SchedEv.yieldWrite j0 (genYield o) :: l₁, l₂, ?_, ?_, hb⟩
      · simp only [writeTrace, heq, List.cons_append]
      · simp [ha]

/-- **C2.** For every task list, concurrency bound of at least 1, and
admissible schedule of the concurrent read phase, the trace produced by the
scheduler model completes every read-only task before any write task
starts, and the write tasks run strictly sequentially in request order:
each write's completion precedes the next write's start. -/
theorem c2_theorem (tasks : List (STask α ε)) (maxC : Nat) (ds : List Decision)
    (tr : List (SchedEv α ε)) (hmax : 1 ≤ maxC)
    (h : execModel tasks maxC ds = some tr) :
    (∀ i, i < (tasks.filter (fun t => t.isReadOnly)).length →
      ∀ j, j < (tasks.filter (fun t => !t.isReadOnly)).length →
        SplitBefore (SchedEv.readComplete i) (SchedEv.writeStart j) tr) ∧
    ∀ j, j + 1 < (tasks.filter (fun t => !t.isReadOnly)).length →
      SplitBefore (SchedEv.writeComplete j) (SchedEv.writeStart (j + 1)) tr := by
  simp only [execModel] at h
  by_cases hemp : tasks.isEmpty
  · rw [if_pos hemp] at h
    have he : tasks = [] := List.isEmpty_iff.mp hemp
    subst he
    constructor
    · intro i hi
      simp at hi
    · intro j hj
      simp at hj
  · rw [if_neg hemp] at h
    rcases Option.map_eq_some'.mp h with ⟨rtr, hrl, rfl⟩
    have hrlen : ((tasks.filter (fun t => t.isReadOnly)).map STask.outcome).length
        = (tasks.filter (fun t => t.isReadOnly)).length := List.length_map _ _
    have hwlen : ((tasks.filter (fun t => !t.isReadOnly)).map STask.outcome).length
        = (tasks.filter (fun t => !t.isReadOnly)).length := List.length_map _ _
    constructor
    · intro i hi j hj
      have hcomp := readLoop_complete
        ((tasks.filter (fun t => t.isReadOnly)).map STask.outcome) ds
        (initRState ((tasks.filter (fun t => t.isReadOnly)).map STask.outcome).length maxC)
        rtr hrl ?_ i ?_
      · have hic : SchedEv.readComplete i ∈ rtr := by
          rcases hcomp with hc | hm
          · simp [initRState] at hc
          · exact hm
        have hws : SchedEv.writeStart j ∈
            writeTrace ((tasks.filter (fun t => !t.isReadOnly)).map STask.outcome) 0 :=
          writeStart_mem _ 0 j (Nat.zero_le j) (by omega)
        exact ⟨rtr, _, rfl, hic, hws⟩
      · intro hempty
        simp only [initRState, List.map_eq_nil_iff, List.range_eq_nil] at hempty
        simp only [initRState]
        omega
      · by_cases hlt :
          i < min maxC ((tasks.filter (fun t => t.isReadOnly)).map STask.outcome).length
        · refine Or.inl ⟨0, ?_⟩
          simp only [initRState, List.mem_map, List.mem_range]
          exact ⟨i, hlt, rfl⟩
        · refine Or.inr ⟨?_, ?_⟩
          · simp only [initRState]
            omega
          · omega
    · intro j hj
      rcases writeTrace_seq ((tasks.filter (fun t => !t.isReadOnly)).map STask.outcome)
          0 j (Nat.zero_le j) (by omega) with ⟨l₁, l₂, heq, ha, hb⟩
      exact ⟨rtr ++ l₁, l₂, by rw [heq, List.append_assoc], List.mem_append_right _ ha, hb⟩

/-- Witness for C2: one read-only task and one write task under concurrency
bound 5 and the natural schedule; the model yields the read's completion and
value strictly before the write's start. -/
theorem c2_witness :
    ((1 ≤ 5) ∧
      execModel [STask.mk true (FnOutcome.resolves 10),
                 STask.mk false (FnOutcome.resolves (ε := Nat) 20)] 5
        [Decision.issueRequests, Decision.completeFn 0, Decision.raceWin 0,
         Decision.issueRequests, Decision.raceWin 0]
        = some [SchedEv.readComplete 0, SchedEv.yieldRead 0 (TRes.ok 10),
                SchedEv.writeStart 0, SchedEv.writeComplete 0,
                SchedEv.yieldWrite 0 (TRes.ok 20)]) ∧
    SplitBefore (SchedEv.readComplete 0) (SchedEv.writeStart 0)
      ([SchedEv.readComplete 0, SchedEv.yieldRead 0 (TRes.ok 10),
        SchedEv.writeStart 0, SchedEv.writeComplete 0,
        SchedEv.yieldWrite 0 (TRes.ok 20)] : List (SchedEv Nat Nat)) :=
  ⟨⟨by decide, by decide⟩,
   (c2_theorem [STask.mk true (FnOutcome.resolves 10),
                STask.mk false (FnOutcome.resolves (ε := Nat) 20)] 5
      [Decision.issueRequests, Decision.completeFn 0, Decision.raceWin 0,
       Decision.issueRequests, Decision.raceWin 0]
      [SchedEv.readComplete 0, SchedEv.yieldRead 0 (TRes.ok 10),
       SchedEv.writeStart 0, SchedEv.writeComplete 0,
       SchedEv.yieldWrite 0 (TRes.ok 20)]
      (by decide) (by decide)).1 0 (by decide) 0 (by decide)⟩

/-- **C1.** Two read-only tasks whose functions both resolve, under
concurrency bound 5: the race-based loop admits a schedule in which the
trace contains the value of task 0 but no yielded result for task 1 at
all — task 1's resolved value is consumed by a `next()` call whose raced
promise loses and is discarded, and its generator is later observed only
as `done`. This refutes the claim that exactly one result value is yielded
per input task with none lost. -/
theorem c1_theorem :
    execModel [STask.mk true (FnOutcome.resolves 10),
               STask.mk true (FnOutcome.resolves (ε := Nat) 20)] 5
        [Decision.issueRequests, Decision.completeFn 0, Decision.raceWin 0,
         Decision.issueRequests, Decision.completeFn 1, Decision.raceWin 1,
         Decision.issueRequests, Decision.raceWin 0]
      = some [SchedEv.readComplete 0, SchedEv.yieldRead 0 (TRes.ok 10),
              SchedEv.readComplete 1] ∧
    ∀ r : TRes Nat Nat,
      SchedEv.yieldRead 1 r ∉
        [SchedEv.readComplete 0, SchedEv.yieldRead 0 (TRes.ok 10),
         SchedEv.readComplete (α := Nat) (ε := Nat) 1] := by
  refine ⟨by decide, ?_⟩
  intro r
  simp

end AgentSys
